import Mathlib

/-!
Shallow embedding of the livetranscription pipeline core
(chunk watcher, session ledger, coaching engine, event bus)
translated from the Python sources under src/livetranscription,
together with proofs of the specification's testable properties.
-/

set_option linter.unusedVariables false

namespace LiveTranscription

/-! ## Data model (session_store.py) -/

/-- Embeds `AlertType` (session_store.py): the six coaching alert categories. -/
inductive AlertType where
  | objection
  | suggested_question
  | missing_topic
  | competitor_mention
  | pace_warning
  | custom_reminder
  deriving DecidableEq, Repr

/-- Embeds the `.value` string of each `AlertType` enum member. -/
def AlertType.value : AlertType → String
  | .objection => "objection"
  | .suggested_question => "suggested_question"
  | .missing_topic => "missing_topic"
  | .competitor_mention => "competitor_mention"
  | .pace_warning => "pace_warning"
  | .custom_reminder => "custom_reminder"

/-- Embeds `CoachingAlert` (session_store.py).  `metadata` is the open
string-to-string mapping used by the coaching engine; timestamps are opaque
strings supplied by the caller in this embedding. -/
structure CoachingAlert where
  id : String
  alert_type : AlertType
  content : String
  suggestion : Option String := none
  timestamp : String := ""
  dismissed : Bool := false
  metadata : List (String × String) := []
  deriving DecidableEq, Repr

/-- Embeds `TranscriptSegment` (session_store.py); time offsets are modelled
as integers since no claim depends on fractional offsets. -/
structure TranscriptSegment where
  speaker : String
  text : String
  start_time : Int := 0
  end_time : Int := 0
  deriving DecidableEq, Repr

/-- Embeds `TranscriptResult` (session_store.py). -/
structure TranscriptResult where
  text : String
  segments : List TranscriptSegment := []
  deriving DecidableEq, Repr

/-- ASCII model of Python `str.strip()` with no argument: drop whitespace
from both ends.  Defined over the character list so it evaluates inside the
kernel. -/
def isSpaceChar (c : Char) : Bool :=
  c = ' ' || c = '\t' || c = '\n' || c = '\r' || c = '\x0b' || c = '\x0c'

def pyStrip (s : String) : String :=
  String.mk (((s.toList.dropWhile isSpaceChar).reverse.dropWhile isSpaceChar).reverse)

/-- Embeds `TranscriptResult.format_with_speakers`. -/
def TranscriptResult.formatWithSpeakers (r : TranscriptResult) : String :=
  if r.segments = [] then r.text
  else String.intercalate "\n" (r.segments.map (fun s => "[" ++ s.speaker ++ "] " ++ s.text))

/-- Embeds `SessionState` (session_store.py): the session ledger. -/
structure SessionState where
  created_at : String
  chunk_seconds : Int
  last_processed_index : Int := -1
  last_summarized_index : Int := -1
  summary : String := ""
  deriving DecidableEq, Repr

/-- Embeds `SessionState.new`: fresh ledger, both watermarks at -1. -/
def SessionState.new (created_at : String) (chunk_seconds : Int) : SessionState :=
  { created_at := created_at, chunk_seconds := chunk_seconds }

/-! ## Chunk watcher (chunk_watcher.py) -/

/-- Embeds `parse_chunk_index`: the name must match the regex
`^out(\d+)\.wav$`; the captured digits give the index. -/
def parseChunkIndex (name : String) : Option Nat :=
  match name.toList with
  | 'o' :: 'u' :: 't' :: rest =>
    let digits := rest.takeWhile Char.isDigit
    let tail := rest.dropWhile Char.isDigit
    if digits ≠ [] ∧ tail = ['.', 'w', 'a', 'v'] then
      some (digits.foldl (fun acc c => 10 * acc + (c.toNat - '0'.toNat)) 0)
    else none
  | _ => none

/-- One directory entry seen by the watcher: chunk index plus file name. -/
abbrev Candidate := Nat × String

/-- The globbed directory listing reduced to parsed chunk candidates with
index strictly greater than `after`: the filtering both watcher lookups
perform on `chunks_dir.glob("out*.wav")`. -/
def collectCandidates (names : List String) (after : Int) : List Candidate :=
  names.filterMap (fun n =>
    match parseChunkIndex n with
    | none => none
    | some idx => if (idx : Int) ≤ after then none else some (idx, n))

/-- The loop body of `find_next_chunk`: keep the lowest-indexed candidate,
first occurrence winning ties. -/
def updateBest (after : Int) (best : Option Candidate) (name : String) : Option Candidate :=
  match parseChunkIndex name with
  | none => best
  | some idx =>
    if (idx : Int) ≤ after then best
    else
      match best with
      | none => some (idx, name)
      | some b => if idx < b.1 then some (idx, name) else b

/-- Embeds `find_next_chunk` (drain-mode lookup): the lowest-indexed chunk
with index strictly greater than `after`, or none. -/
def findNextChunk (names : List String) (after : Int) : Option Candidate :=
  names.foldl (updateBest after) none

/-- Embeds `find_next_completed_chunk`: gather candidates with index greater
than `after`; if fewer than two exist return none; otherwise drop every
candidate carrying the maximal index and return the lowest-indexed survivor
(first occurrence winning ties), or none if none survive. -/
def findNextCompletedChunk (names : List String) (after : Int) : Option Candidate :=
  match collectCandidates names after with
  | [] => none
  | [_] => none
  | p :: q :: rest =>
    let newest := (q :: rest).foldl (fun m r => max m r.1) p.1
    match (p :: q :: rest).filter (fun c => c.1 ≠ newest) with
    | [] => none
    | c :: cs => some (cs.foldl (fun b d => if d.1 < b.1 then d else b) c)

/-! ### Chunk watcher lemmas -/

lemma collectCandidates_nil (after : Int) : collectCandidates [] after = [] := rfl

lemma collectCandidates_cons_skip (n : String) (ns : List String) (after : Int)
    (hp : parseChunkIndex n = none) :
    collectCandidates (n :: ns) after = collectCandidates ns after := by
  simp [collectCandidates, List.filterMap_cons, hp]

lemma collectCandidates_cons_le (n : String) (ns : List String) (after : Int) (idx : Nat)
    (hp : parseChunkIndex n = some idx) (hle : (idx : Int) ≤ after) :
    collectCandidates (n :: ns) after = collectCandidates ns after := by
  simp [collectCandidates, List.filterMap_cons, hp, hle]

lemma collectCandidates_cons_gt (n : String) (ns : List String) (after : Int) (idx : Nat)
    (hp : parseChunkIndex n = some idx) (hle : ¬ (idx : Int) ≤ after) :
    collectCandidates (n :: ns) after = (idx, n) :: collectCandidates ns after := by
  simp [collectCandidates, List.filterMap_cons, hp, hle]

lemma foldl_updateBest_spec (after : Int) (names : List String) (acc : Option Candidate) :
    (names.foldl (updateBest after) acc = none ↔
        acc = none ∧ collectCandidates names after = []) ∧
    (∀ c, names.foldl (updateBest after) acc = some c →
        (c ∈ collectCandidates names after ∨ acc = some c) ∧
        (∀ d ∈ collectCandidates names after, c.1 ≤ d.1) ∧
        (∀ b, acc = some b → c.1 ≤ b.1)) := by
  induction names generalizing acc with
  | nil =>
    refine ⟨by simp [collectCandidates], ?_⟩
    intro c hc
    simp only [List.foldl_nil] at hc
    refine ⟨Or.inr hc, by simp [collectCandidates], ?_⟩
    intro b hb
    rw [hc] at hb
    cases hb
    exact le_refl _
  | cons n ns ih =>
    simp only [List.foldl_cons]
    rcases hp : parseChunkIndex n with _ | idx
    · have hcc := collectCandidates_cons_skip n ns after hp
      have hub : updateBest after acc n = acc := by simp [updateBest, hp]
      rw [hub, hcc]
      exact ih acc
    · by_cases hle : (idx : Int) ≤ after
      · have hcc := collectCandidates_cons_le n ns after idx hp hle
        have hub : updateBest after acc n = acc := by simp [updateBest, hp, hle]
        rw [hub, hcc]
        exact ih acc
      · have hcc := collectCandidates_cons_gt n ns after idx hp hle
        rw [hcc]
        rcases acc with _ | b
        · have hub : updateBest after none n = some (idx, n) := by
            simp [updateBest, hp, hle]
          rw [hub]
          obtain ⟨ihn, ihs⟩ := ih (some (idx, n))
          constructor
          · constructor
            · intro h
              exact absurd ((ihn.mp h).1) (by simp)
            · rintro ⟨-, h⟩
              simp at h
          · intro c hc
            obtain ⟨hmem, hmin, hacc⟩ := ihs c hc
            refine ⟨?_, ?_, ?_⟩
            · rcases hmem with h | h
              · exact Or.inl (List.mem_cons_of_mem _ h)
              · cases h
                exact Or.inl (List.mem_cons_self _ _)
            · intro d hd
              rcases List.mem_cons.mp hd with h | h
              · subst h
                exact hacc (idx, n) rfl
              · exact hmin d h
            · intro b hb
              exact absurd hb (by simp)
        · by_cases hlt : idx < b.1
          · have hub : updateBest after (some b) n = some (idx, n) := by
              simp [updateBest, hp, hle, hlt]
            rw [hub]
            obtain ⟨ihn, ihs⟩ := ih (some (idx, n))
            constructor
            · constructor
              · intro h
                exact absurd ((ihn.mp h).1) (by simp)
              · rintro ⟨h, -⟩
                exact absurd h (by simp)
            · intro c hc
              obtain ⟨hmem, hmin, hacc⟩ := ihs c hc
              have hcidx : c.1 ≤ idx := hacc (idx, n) rfl
              refine ⟨?_, ?_, ?_⟩
              · rcases hmem with h | h
                · exact Or.inl (List.mem_cons_of_mem _ h)
                · exact Or.inl (by cases h; exact List.mem_cons_self _ _)
              · intro d hd
                rcases List.mem_cons.mp hd with h | h
                · subst h
                  exact hcidx
                · exact hmin d h
              · intro bb hbb
                cases hbb
                exact le_trans hcidx (le_of_lt hlt)
          · have hub : updateBest after (some b) n = some b := by
              simp [updateBest, hp, hle, hlt]
            rw [hub]
            obtain ⟨ihn, ihs⟩ := ih (some b)
            constructor
            · constructor
              · intro h
                exact absurd ((ihn.mp h).1) (by simp)
              · rintro ⟨h, -⟩
                exact absurd h (by simp)
            · intro c hc
              obtain ⟨hmem, hmin, hacc⟩ := ihs c hc
              have hcb : c.1 ≤ b.1 := hacc b rfl
              refine ⟨?_, ?_, ?_⟩
              · rcases hmem with h | h
                · exact Or.inl (List.mem_cons_of_mem _ h)
                · exact Or.inr h
              · intro d hd
                rcases List.mem_cons.mp hd with h | h
                · subst h
                  exact le_trans hcb (le_of_not_lt hlt)
                · exact hmin d h
              · exact hacc

lemma foldMax_spec (l : List Candidate) (a : Nat) :
    a ≤ l.foldl (fun m r => max m r.1) a ∧
    (l.foldl (fun m r => max m r.1) a = a ∨
      ∃ x ∈ l, l.foldl (fun m r => max m r.1) a = x.1) ∧
    (∀ x ∈ l, x.1 ≤ l.foldl (fun m r => max m r.1) a) := by
  induction l generalizing a with
  | nil => simp
  | cons p ps ih =>
    simp only [List.foldl_cons]
    obtain ⟨ih1, ih2, ih3⟩ := ih (max a p.1)
    refine ⟨le_trans (le_max_left _ _) ih1, ?_, ?_⟩
    · rcases ih2 with h | ⟨x, hx, hxx⟩
      · rcases max_choice a p.1 with hm | hm
        · exact Or.inl (h.trans hm)
        · exact Or.inr ⟨p, List.mem_cons_self _ _, h.trans hm⟩
      · exact Or.inr ⟨x, List.mem_cons_of_mem _ hx, hxx⟩
    · intro x hx
      rcases List.mem_cons.mp hx with h | h
      · subst h
        exact le_trans (le_max_right _ _) ih1
      · exact ih3 x h

lemma foldMin_spec (cs : List Candidate) (c : Candidate) :
    (cs.foldl (fun b d => if d.1 < b.1 then d else b) c ∈ c :: cs) ∧
    (cs.foldl (fun b d => if d.1 < b.1 then d else b) c).1 ≤ c.1 ∧
    (∀ d ∈ cs, (cs.foldl (fun b d => if d.1 < b.1 then d else b) c).1 ≤ d.1) := by
  induction cs generalizing c with
  | nil => simp
  | cons p ps ih =>
    simp only [List.foldl_cons]
    by_cases h : p.1 < c.1
    · rw [if_pos h]
      obtain ⟨ih1, ih2, ih3⟩ := ih p
      refine ⟨?_, le_trans ih2 (le_of_lt h), ?_⟩
      · rcases List.mem_cons.mp ih1 with hm | hm
        · rw [hm]
          exact List.mem_cons_of_mem _ (List.mem_cons_self _ _)
        · exact List.mem_cons_of_mem _ (List.mem_cons_of_mem _ hm)
      · intro d hd
        rcases List.mem_cons.mp hd with hm | hm
        · subst hm
          exact ih2
        · exact ih3 d hm
    · rw [if_neg h]
      obtain ⟨ih1, ih2, ih3⟩ := ih c
      refine ⟨?_, ih2, ?_⟩
      · rcases List.mem_cons.mp ih1 with hm | hm
        · rw [hm]
          exact List.mem_cons_self _ _
        · exact List.mem_cons_of_mem _ (List.mem_cons_of_mem _ hm)
      · intro d hd
        rcases List.mem_cons.mp hd with hm | hm
        · subst hm
          exact le_trans ih2 (le_of_not_lt h)
        · exact ih3 d hm

lemma findNextCompletedChunk_spec (names : List String) (after : Int)
    (hnd : ((collectCandidates names after).map Prod.fst).Nodup) :
    (findNextCompletedChunk names after = none ↔
        (collectCandidates names after).length < 2) ∧
    (∀ c, findNextCompletedChunk names after = some c →
        c ∈ collectCandidates names after ∧
        (∃ d ∈ collectCandidates names after, c.1 < d.1) ∧
        ∀ d ∈ collectCandidates names after,
          (∃ m ∈ collectCandidates names after, d.1 < m.1) → c.1 ≤ d.1) := by
  rcases hc : collectCandidates names after with _ | ⟨p, rest1⟩
  · constructor
    · simp [findNextCompletedChunk, hc]
    · intro c hcc
      simp [findNextCompletedChunk, hc] at hcc
  · rcases rest1 with _ | ⟨q, rest⟩
    · constructor
      · simp [findNextCompletedChunk, hc]
      · intro c hcc
        simp [findNextCompletedChunk, hc] at hcc
    · -- two or more candidates
      rw [hc] at hnd
      set newest := (q :: rest).foldl (fun m r => max m r.1) p.1 with hnw
      obtain ⟨hmax1, hmax2, hmax3⟩ := foldMax_spec (q :: rest) p.1
      rw [← hnw] at hmax1 hmax2 hmax3
      have hub : ∀ x ∈ (p :: q :: rest : List Candidate), x.1 ≤ newest := by
        intro x hx
        rcases List.mem_cons.mp hx with h | h
        · subst h
          exact hmax1
        · exact hmax3 x h
      have hattained : ∃ m ∈ (p :: q :: rest : List Candidate), m.1 = newest := by
        rcases hmax2 with h | ⟨x, hx, hxx⟩
        · exact ⟨p, List.mem_cons_self _ _, h.symm⟩
        · exact ⟨x, List.mem_cons_of_mem _ hx, hxx.symm⟩
      have hpq : p.1 ≠ q.1 := by
        simp only [List.map_cons, List.nodup_cons, List.mem_cons, List.mem_map] at hnd
        intro h
        exact hnd.1 (Or.inl h)
      have hsurv : (p :: q :: rest : List Candidate).filter (fun c => c.1 ≠ newest) ≠ [] := by
        intro hemp
        have hp' : ¬ (p.1 ≠ newest) := by
          intro h
          have : p ∈ (p :: q :: rest : List Candidate).filter (fun c => c.1 ≠ newest) := by
            rw [List.mem_filter]
            exact ⟨List.mem_cons_self _ _, by simpa using h⟩
          rw [hemp] at this
          exact absurd this (List.not_mem_nil _)
        have hq' : ¬ (q.1 ≠ newest) := by
          intro h
          have : q ∈ (p :: q :: rest : List Candidate).filter (fun c => c.1 ≠ newest) := by
            rw [List.mem_filter]
            exact ⟨List.mem_cons_of_mem _ (List.mem_cons_self _ _), by simpa using h⟩
          rw [hemp] at this
          exact absurd this (List.not_mem_nil _)
        push_neg at hp' hq'
        exact hpq (hp'.trans hq'.symm)
      rcases hf : (p :: q :: rest : List Candidate).filter (fun c => c.1 ≠ newest) with _ | ⟨c0, cs⟩
      · exact absurd hf hsurv
      · have hres : findNextCompletedChunk names after =
            some (cs.foldl (fun b d => if d.1 < b.1 then d else b) c0) := by
          simp only [findNextCompletedChunk, hc, ← hnw, hf]
        obtain ⟨hmin1, hmin2, hmin3⟩ := foldMin_spec cs c0
        constructor
        · constructor
          · intro h
            rw [hres] at h
            exact absurd h (by simp)
          · intro h
            simp only [List.length_cons] at h
            omega
        · intro c hcc
          rw [hres] at hcc
          have hceq : c = cs.foldl (fun b d => if d.1 < b.1 then d else b) c0 := by
            cases hcc
            rfl
          have hcf : c ∈ (p :: q :: rest : List Candidate).filter (fun x => x.1 ≠ newest) := by
            rw [hf, hceq]
            exact hmin1
          rw [List.mem_filter] at hcf
          obtain ⟨hcmem, hcne⟩ := hcf
          have hcne' : c.1 ≠ newest := by simpa using hcne
          refine ⟨hcmem, ?_, ?_⟩
          · obtain ⟨m, hm, hmeq⟩ := hattained
            exact ⟨m, hm, hmeq ▸ lt_of_le_of_ne (hub c hcmem) hcne'⟩
          · intro d hd ⟨m, hm, hdm⟩
            have hdne : d.1 ≠ newest := by
              intro h
              exact absurd (lt_of_lt_of_le hdm (hub m hm)) (by rw [h]; exact lt_irrefl _)
            have hdf : d ∈ (p :: q :: rest : List Candidate).filter (fun x => x.1 ≠ newest) := by
              rw [List.mem_filter]
              exact ⟨hd, by simpa using hdne⟩
            rw [hf] at hdf
            rcases List.mem_cons.mp hdf with h | h
            · rw [hceq, h]
              exact hmin2
            · rw [hceq]
              exact hmin3 d h

/-- C2: the drain lookup `find_next_chunk` returns the lowest-indexed chunk
with index strictly greater than `after_index` (none when no such chunk
exists); the non-drain lookup `find_next_completed_chunk` returns none
exactly when fewer than two candidates with index greater than `after_index`
exist, and otherwise returns the candidate of lowest index among those that
are not of maximal index; files whose names do not match the `out(\d+).wav`
pattern are ignored by both lookups.  The hypothesis asks the parsed indices
to be pairwise distinct (the spec leaves duplicate indices undefined). -/
theorem c2_chunk_watcher_lookup (names : List String) (after : Int)
    (hnd : ((collectCandidates names after).map Prod.fst).Nodup) :
    (findNextChunk names after = none ↔ collectCandidates names after = []) ∧
    (∀ c, findNextChunk names after = some c →
        c ∈ collectCandidates names after ∧
        ∀ d ∈ collectCandidates names after, c.1 ≤ d.1) ∧
    (findNextCompletedChunk names after = none ↔
        (collectCandidates names after).length < 2) ∧
    (∀ c, findNextCompletedChunk names after = some c →
        c ∈ collectCandidates names after ∧
        (∃ d ∈ collectCandidates names after, c.1 < d.1) ∧
        ∀ d ∈ collectCandidates names after,
          (∃ m ∈ collectCandidates names after, d.1 < m.1) → c.1 ≤ d.1) ∧
    (∀ nm, parseChunkIndex nm = none →
        findNextChunk (nm :: names) after = findNextChunk names after ∧
        findNextCompletedChunk (nm :: names) after = findNextCompletedChunk names after) := by
  obtain ⟨hn, hs⟩ := foldl_updateBest_spec after names none
  obtain ⟨hcn, hcs⟩ := findNextCompletedChunk_spec names after hnd
  refine ⟨by simpa [findNextChunk] using hn, ?_, hcn, hcs, ?_⟩
  · intro c hc
    obtain ⟨hmem, hmin, -⟩ := hs c hc
    refine ⟨?_, hmin⟩
    rcases hmem with h | h
    · exact h
    · exact absurd h (by simp)
  · intro nm hp
    constructor
    · show (nm :: names).foldl (updateBest after) none = names.foldl (updateBest after) none
      simp only [List.foldl_cons]
      have : updateBest after none nm = none := by simp [updateBest, hp]
      rw [this]
    · unfold findNextCompletedChunk
      rw [collectCandidates_cons_skip nm names after hp]

/-- Witness for C2 on a concrete directory: files out00000.wav, out00002.wav,
out00005.wav plus a non-matching name, with after_index -1. -/
theorem c2_chunk_watcher_lookup_witness :
    ((collectCandidates ["out00000.wav", "notes.txt", "out00002.wav", "out00005.wav"] (-1)).map
        Prod.fst).Nodup ∧
    findNextChunk ["out00000.wav", "notes.txt", "out00002.wav", "out00005.wav"] (-1) =
      some (0, "out00000.wav") ∧
    (findNextCompletedChunk ["out00000.wav", "notes.txt", "out00002.wav", "out00005.wav"] (-1) =
        none ↔
      (collectCandidates ["out00000.wav", "notes.txt", "out00002.wav", "out00005.wav"]
            (-1)).length < 2) := by
  refine ⟨by decide, by decide, ?_⟩
  exact (c2_chunk_watcher_lookup
    ["out00000.wav", "notes.txt", "out00002.wav", "out00005.wav"] (-1) (by decide)).2.2.1

lemma mem_collectCandidates_gt (names : List String) (after : Int) (c : Candidate)
    (h : c ∈ collectCandidates names after) :
    after < (c.1 : Int) ∧ parseChunkIndex c.2 = some c.1 := by
  rw [collectCandidates, List.mem_filterMap] at h
  obtain ⟨n, hn, hf⟩ := h
  rcases hp : parseChunkIndex n with _ | idx
  · rw [hp] at hf
    exact absurd hf (by simp)
  · rw [hp] at hf
    have hf' : (if (idx : Int) ≤ after then none else some ((idx, n) : Candidate)) = some c := hf
    by_cases hle : (idx : Int) ≤ after
    · rw [if_pos hle] at hf'
      exact absurd hf' (by simp)
    · rw [if_neg hle] at hf'
      cases hf'
      exact ⟨lt_of_not_le hle, hp⟩

lemma findNextChunk_mem (names : List String) (after : Int) (c : Candidate)
    (h : findNextChunk names after = some c) : c ∈ collectCandidates names after := by
  obtain ⟨-, hs⟩ := foldl_updateBest_spec after names none
  obtain ⟨hmem, -, -⟩ := hs c h
  rcases hmem with h' | h'
  · exact h'
  · exact absurd h' (by simp)

lemma findNextCompletedChunk_mem (names : List String) (after : Int) (c : Candidate)
    (h : findNextCompletedChunk names after = some c) :
    c ∈ collectCandidates names after := by
  rcases hc : collectCandidates names after with _ | ⟨p, rest1⟩
  · simp [findNextCompletedChunk, hc] at h
  · rcases rest1 with _ | ⟨q, rest⟩
    · simp [findNextCompletedChunk, hc] at h
    · rcases hf : (p :: q :: rest : List Candidate).filter
          (fun x => x.1 ≠ (q :: rest).foldl (fun m r => max m r.1) p.1) with _ | ⟨c0, cs⟩
      · simp only [findNextCompletedChunk, hc, hf] at h
        exact absurd h (by simp)
      · simp only [findNextCompletedChunk, hc, hf] at h
        obtain ⟨hmin1, -, -⟩ := foldMin_spec cs c0
        have : c ∈ c0 :: cs := by
          cases h
          exact hmin1
        rw [← hf] at this
        exact List.mem_of_mem_filter this

/-! ## Pipeline orchestrator model (cli.py `run`, server.py `_process_chunks`) -/

/-- One structured record of `transcript.jsonl`.  A success record carries
`text`; a failure record omits `text` and carries `error` (cli.py
`process_chunk`). -/
structure JsonlRecord where
  index : Nat
  chunk_file : String
  text : Option String
  segments : Option (List TranscriptSegment)
  model : String
  language : Option String
  recorded_at : String
  error : Option String
  deriving DecidableEq, Repr

/-- The per-session directory as the pipeline sees it: chunk files, the
quarantine directory, both transcript logs, the persisted ledger and the
rendered summary document. -/
structure SessionFs where
  chunksDir : List String
  failedDir : List String
  transcriptTxt : List String
  transcriptJsonl : List JsonlRecord
  stateJson : Option SessionState
  summaryMd : Option String
  deriving DecidableEq, Repr

def emptyFs : SessionFs :=
  { chunksDir := [], failedDir := [], transcriptTxt := [], transcriptJsonl := [],
    stateJson := none, summaryMd := none }

/-- Embeds `format_hhmmss` (session_store.py); `//` and `%` of Python are
`Int.ediv`/`Int.emod` on a positive divisor. -/
def formatHHMMSS (total : Int) : String :=
  let pad2 : Int → String := fun n => if 0 ≤ n ∧ n < 10 then "0" ++ toString n else toString n
  pad2 (total / 3600) ++ ":" ++ pad2 (total % 3600 / 60) ++ ":" ++ pad2 (total % 60)

/-- The transcript.txt line appended by `append_transcript_text`. -/
def transcriptLine (chunkIndex : Nat) (chunkSeconds : Int) (text : String) : String :=
  "[" ++ formatHHMMSS ((chunkIndex : Int) * chunkSeconds) ++ "] " ++ pyStrip text

/-- Embeds `process_chunk` from cli.py `run`: on transcription success,
append the plain-text line and a text-bearing jsonl record, advance
`last_processed_index`, persist the ledger, and delete the chunk unless
audio is kept; on failure, move the chunk to the quarantine directory,
append an error-shaped jsonl record (no text field), still advance
`last_processed_index` and persist the ledger.  The nondeterministic
wall-clock timestamp is passed in as `recordedAt`, and the external
transcription call's outcome as `result`. -/
def processChunkCli (fs : SessionFs) (st : SessionState) (chunkIndex : Nat) (chunkName : String)
    (keepAudio : Bool) (modelName : String) (language : Option String) (recordedAt : String)
    (result : Except String TranscriptResult) : SessionFs × SessionState :=
  match result with
  | .ok r =>
    let text := if pyStrip r.text = "" then "(silence)" else r.text
    let displayText := if r.segments ≠ [] then r.formatWithSpeakers else text
    let st' := { st with last_processed_index := (chunkIndex : Int) }
    let jrec : JsonlRecord :=
      { index := chunkIndex, chunk_file := "chunks/" ++ chunkName, text := some text,
        segments := some r.segments, model := modelName, language := language,
        recorded_at := recordedAt, error := none }
    ({ fs with
        transcriptTxt := fs.transcriptTxt ++ [transcriptLine chunkIndex st.chunk_seconds displayText],
        transcriptJsonl := fs.transcriptJsonl ++ [jrec],
        stateJson := some st',
        chunksDir := if keepAudio then fs.chunksDir else fs.chunksDir.erase chunkName }, st')
  | .error e =>
    let st' := { st with last_processed_index := (chunkIndex : Int) }
    let jrec : JsonlRecord :=
      { index := chunkIndex, chunk_file := "failed_chunks/" ++ chunkName, text := none,
        segments := none, model := modelName, language := language,
        recorded_at := recordedAt, error := some e }
    ({ fs with
        chunksDir := fs.chunksDir.erase chunkName,
        failedDir := fs.failedDir ++ [chunkName],
        transcriptJsonl := fs.transcriptJsonl ++ [jrec],
        stateJson := some st' }, st')

/-- Embeds one iteration body of server.py `_process_chunks` once a chunk has
been found: on success the transcript logs are appended, the watermark
advanced and the ledger saved; any exception (including a transcription
failure) falls through to the generic handler, which only logs and sleeps --
nothing is quarantined or recorded and the watermark stays put. -/
def processChunkServer (fs : SessionFs) (st : SessionState) (chunkIndex : Nat)
    (chunkName : String) (keepAudio : Bool) (modelName : String) (language : Option String)
    (recordedAt : String) (result : Except String TranscriptResult) :
    SessionFs × SessionState :=
  match result with
  | .ok r =>
    let formattedText :=
      if r.segments ≠ [] then
        String.intercalate " " (r.segments.map (fun s => "[" ++ s.speaker ++ "] " ++ s.text))
      else r.text
    let st' := { st with last_processed_index := (chunkIndex : Int) }
    let jrec : JsonlRecord :=
      { index := chunkIndex, chunk_file := chunkName, text := some r.text,
        segments := some r.segments, model := modelName, language := language,
        recorded_at := recordedAt, error := none }
    ({ fs with
        transcriptTxt := fs.transcriptTxt ++ [transcriptLine chunkIndex st.chunk_seconds formattedText],
        transcriptJsonl := fs.transcriptJsonl ++ [jrec],
        stateJson := some st',
        chunksDir := if keepAudio then fs.chunksDir else fs.chunksDir.erase chunkName }, st')
  | .error _ => (fs, st)

/-- Embeds the success path of a summary run (cli.py `maybe_update_summary`,
server.py `_run_summary`): store the updated summary, move
`last_summarized_index` up to `last_processed_index`, persist the ledger and
rewrite the summary document.  On failure both leave everything unmoved. -/
def runSummarySuccess (fs : SessionFs) (st : SessionState) (newSummary : String) :
    SessionFs × SessionState :=
  let st' := { st with summary := newSummary,
                       last_summarized_index := st.last_processed_index }
  ({ fs with stateJson := some st', summaryMd := some newSummary }, st')

/-- One step of a session: the capture process creates a chunk file, the
recording loop processes the chunk the watcher hands it (cli or server
variant), the drain loop processes the chunk returned in drain mode, or a
summary run succeeds. -/
inductive SessStep : SessionFs × SessionState → SessionFs × SessionState → Prop where
  | newChunkFile (fs : SessionFs) (st : SessionState) (nm : String) :
      SessStep (fs, st) ({ fs with chunksDir := fs.chunksDir ++ [nm] }, st)
  | processCliCompleted (fs : SessionFs) (st : SessionState) (idx : Nat) (nm : String)
      (keep : Bool) (modelName : String) (lang : Option String) (recAt : String)
      (res : Except String TranscriptResult)
      (h : findNextCompletedChunk fs.chunksDir st.last_processed_index = some (idx, nm)) :
      SessStep (fs, st) (processChunkCli fs st idx nm keep modelName lang recAt res)
  | processCliDrain (fs : SessionFs) (st : SessionState) (idx : Nat) (nm : String)
      (keep : Bool) (modelName : String) (lang : Option String) (recAt : String)
      (res : Except String TranscriptResult)
      (h : findNextChunk fs.chunksDir st.last_processed_index = some (idx, nm)) :
      SessStep (fs, st) (processChunkCli fs st idx nm keep modelName lang recAt res)
  | processServerCompleted (fs : SessionFs) (st : SessionState) (idx : Nat) (nm : String)
      (keep : Bool) (modelName : String) (lang : Option String) (recAt : String)
      (res : Except String TranscriptResult)
      (h : findNextCompletedChunk fs.chunksDir st.last_processed_index = some (idx, nm)) :
      SessStep (fs, st) (processChunkServer fs st idx nm keep modelName lang recAt res)
  | summaryOk (fs : SessionFs) (st : SessionState) (newSummary : String) :
      SessStep (fs, st) (runSummarySuccess fs st newSummary)

/-- Session states reachable from a fresh session (`SessionState.new`, empty
directory) by pipeline steps. -/
inductive SessReachable : SessionFs × SessionState → Prop where
  | init (createdAt : String) (chunkSeconds : Int) :
      SessReachable (emptyFs, SessionState.new createdAt chunkSeconds)
  | step {p q : SessionFs × SessionState} :
      SessReachable p → SessStep p q → SessReachable q

lemma processChunkCli_state (fs : SessionFs) (st : SessionState) (idx : Nat) (nm : String)
    (keep : Bool) (modelName : String) (lang : Option String) (recAt : String)
    (res : Except String TranscriptResult) :
    (processChunkCli fs st idx nm keep modelName lang recAt res).2 =
      { st with last_processed_index := (idx : Int) } := by
  cases res <;> rfl

/-- C1: the ledger watermark invariant.  Every reachable session state
satisfies `last_summarized_index ≤ last_processed_index`: processing a chunk
raises `last_processed_index` to the strictly larger index handed over by
the watcher, and a successful summary run copies `last_processed_index` into
`last_summarized_index`, so no step breaks the inequality. -/
theorem c1_watermark_invariant (p : SessionFs × SessionState) (h : SessReachable p) :
    p.2.last_summarized_index ≤ p.2.last_processed_index := by
  induction h with
  | init createdAt chunkSeconds => exact le_refl _
  | step hr hs ih =>
    cases hs with
    | newChunkFile fs st nm => exact ih
    | processCliCompleted fs st idx nm keep modelName lang recAt res h =>
      have hmem := findNextCompletedChunk_mem _ _ _ h
      have hgt := (mem_collectCandidates_gt _ _ _ hmem).1
      rw [processChunkCli_state]
      exact le_of_lt (lt_of_le_of_lt ih hgt)
    | processCliDrain fs st idx nm keep modelName lang recAt res h =>
      have hmem := findNextChunk_mem _ _ _ h
      have hgt := (mem_collectCandidates_gt _ _ _ hmem).1
      rw [processChunkCli_state]
      exact le_of_lt (lt_of_le_of_lt ih hgt)
    | processServerCompleted fs st idx nm keep modelName lang recAt res h =>
      have hmem := findNextCompletedChunk_mem _ _ _ h
      have hgt := (mem_collectCandidates_gt _ _ _ hmem).1
      cases res with
      | ok r => exact le_of_lt (lt_of_le_of_lt ih hgt)
      | error e => exact ih
    | summaryOk fs st newSummary => exact le_refl _

/-- Witness for C1: the invariant at the concrete state reached by creating
chunk files 0 and 1 and processing chunk 0 through the cli pipeline. -/
theorem c1_watermark_invariant_witness :
    (processChunkCli
        { emptyFs with chunksDir := ["out00000.wav", "out00001.wav"] }
        (SessionState.new "2026-01-01" 30) 0 "out00000.wav" false "m" none "t"
        (.ok { text := "hello" })).2.last_summarized_index ≤
      (processChunkCli
        { emptyFs with chunksDir := ["out00000.wav", "out00001.wav"] }
        (SessionState.new "2026-01-01" 30) 0 "out00000.wav" false "m" none "t"
        (.ok { text := "hello" })).2.last_processed_index := by
  refine c1_watermark_invariant _ (SessReachable.step (SessReachable.step (SessReachable.step
    (SessReachable.init "2026-01-01" 30)
    (SessStep.newChunkFile _ _ "out00000.wav"))
    (SessStep.newChunkFile _ _ "out00001.wav"))
    (SessStep.processCliCompleted _ _ 0 "out00000.wav" false "m" none "t"
      (.ok { text := "hello" }) (by decide)))

/-- C4: behaviour on a chunk whose transcription has exhausted its retries.
The cli pipeline moves the chunk into the quarantine directory, appends an
error-shaped jsonl record (text absent, error present), appends no
plain-text transcript line, advances `last_processed_index` to the chunk's
index and persists the ledger.  The server pipeline, however, leaves the
session completely unchanged on the same failure: the exception reaches the
generic handler, nothing is quarantined and the watermark does not advance,
so a persistently failing chunk blocks the server loop. -/
theorem c4_failed_chunk_quarantine (fs : SessionFs) (st : SessionState) (idx : Nat)
    (nm : String) (keep : Bool) (modelName : String) (lang : Option String)
    (recAt : String) (e : String) :
    ((processChunkCli fs st idx nm keep modelName lang recAt (.error e)).2.last_processed_index
        = (idx : Int) ∧
      (processChunkCli fs st idx nm keep modelName lang recAt (.error e)).1.stateJson =
        some (processChunkCli fs st idx nm keep modelName lang recAt (.error e)).2 ∧
      (processChunkCli fs st idx nm keep modelName lang recAt (.error e)).1.failedDir =
        fs.failedDir ++ [nm] ∧
      (processChunkCli fs st idx nm keep modelName lang recAt (.error e)).1.chunksDir =
        fs.chunksDir.erase nm ∧
      (processChunkCli fs st idx nm keep modelName lang recAt (.error e)).1.transcriptTxt =
        fs.transcriptTxt ∧
      ∃ jrec,
        (processChunkCli fs st idx nm keep modelName lang recAt (.error e)).1.transcriptJsonl =
          fs.transcriptJsonl ++ [jrec] ∧
        jrec.text = none ∧ jrec.error = some e ∧ jrec.index = idx) ∧
    processChunkServer fs st idx nm keep modelName lang recAt (.error e) = (fs, st) := by
  refine ⟨⟨rfl, rfl, rfl, rfl, rfl, ?_⟩, rfl⟩
  exact ⟨_, rfl, rfl, rfl, rfl⟩

/-! ## Ledger save atomicity (session_store.py `save_state`) -/

/-- Minimal escaping of `json.dumps` for the characters that occur in this
development's concrete inputs. -/
def jsonEscapeChar (c : Char) : List Char :=
  if c = '"' then ['\\', '"']
  else if c = '\\' then ['\\', '\\']
  else if c = '\n' then ['\\', 'n']
  else if c = '\t' then ['\\', 't']
  else if c = '\r' then ['\\', 'r']
  else [c]

def jsonEscape (s : String) : String :=
  String.mk (s.toList.flatMap jsonEscapeChar)

/-- The ledger file contents produced by `save_state`:
`json.dumps(asdict(state), indent=2, sort_keys=True) + "\n"`, keys in sorted
order. -/
def renderStateJson (st : SessionState) : String :=
  "\x7b\n  \"chunk_seconds\": " ++ toString st.chunk_seconds ++
    ",\n  \"created_at\": \"" ++ jsonEscape st.created_at ++
    "\",\n  \"last_processed_index\": " ++ toString st.last_processed_index ++
    ",\n  \"last_summarized_index\": " ++ toString st.last_summarized_index ++
    ",\n  \"summary\": \"" ++ jsonEscape st.summary ++ "\"\n\x7d\n"

/-- The primitive file-system operations relevant to ledger persistence:
an in-place write (open for writing truncates, then the data is written) and
an atomic rename. -/
inductive FsOp where
  | writeFile (path : String) (contents : String)
  | rename (src dst : String)
  deriving DecidableEq, Repr

/-- A flat directory: file path to contents. -/
abbrev FileSys := List (String × String)

def lookupFile (fs : FileSys) (p : String) : Option String :=
  (fs.find? (fun q => q.1 = p)).map (fun q => q.2)

def setFile (fs : FileSys) (p : String) (c : String) : FileSys :=
  if fs.any (fun q => q.1 = p) then
    fs.map (fun q => if q.1 = p then (p, c) else q)
  else fs ++ [(p, c)]

def removeFile (fs : FileSys) (p : String) : FileSys :=
  fs.filter (fun q => q.1 ≠ p)

/-- Final effect of one file-system operation. -/
def runOp (fs : FileSys) : FsOp → FileSys
  | .writeFile p c => setFile fs p c
  | .rename src dst =>
    match lookupFile fs src with
    | some c => setFile (removeFile fs src) dst c
    | none => fs

/-- The directory states a concurrent reader can observe while one operation
runs: an in-place write first truncates the file and then fills it; a rename
is atomic and exposes only its final state. -/
def opTrace (fs : FileSys) : FsOp → List FileSys
  | .writeFile p c => [setFile fs p "", setFile fs p c]
  | .rename src dst => [runOp fs (.rename src dst)]

/-- All directory states observable while a sequence of operations runs. -/
def progTrace (fs : FileSys) : List FsOp → List FileSys
  | [] => []
  | op :: ops => opTrace fs op ++ progTrace (runOp fs op) ops

/-- A sequence of operations is atomic from the perspective of a reader of
`path` when every observable state of that file is either the initial or the
final contents. -/
def AtomicForReader (path : String) (fs0 : FileSys) (ops : List FsOp) : Prop :=
  ∀ obs ∈ (progTrace fs0 ops).map (fun f => lookupFile f path),
    obs = lookupFile fs0 path ∨ obs = lookupFile (ops.foldl runOp fs0) path

instance (path : String) (fs0 : FileSys) (ops : List FsOp) :
    Decidable (AtomicForReader path fs0 ops) := by
  unfold AtomicForReader
  infer_instance

/-- Embeds `save_state` (session_store.py line 263): a single in-place
`Path.write_text` of the rendered ledger to `state.json`. -/
def saveStateOps (st : SessionState) : List FsOp :=
  [FsOp.writeFile "state.json" (renderStateJson st)]

/-- Modelled from the spec: the durable-replace save the specification
prescribes — write the rendered ledger to a temporary location, then rename
it atomically over `state.json`. -/
def specAtomicSaveOps (st : SessionState) : List FsOp :=
  [FsOp.writeFile "state.json.tmp" (renderStateJson st),
   FsOp.rename "state.json.tmp" "state.json"]

/-- C3: `save_state` is not atomic from a reader's perspective.  Writing the
ledger for the state with `last_processed_index = 0` over a ledger for the
fresh state exposes a truncated (empty) `state.json` to a concurrent reader,
which is neither the old nor the new ledger; the temporary-file-plus-rename
save the spec describes is atomic on the same input. -/
theorem c3_save_state_not_atomic :
    ¬ AtomicForReader "state.json"
        [("state.json", renderStateJson (SessionState.new "2026-01-01" 30))]
        (saveStateOps
          { SessionState.new "2026-01-01" 30 with last_processed_index := 0 }) ∧
    AtomicForReader "state.json"
        [("state.json", renderStateJson (SessionState.new "2026-01-01" 30))]
        (specAtomicSaveOps
          { SessionState.new "2026-01-01" 30 with last_processed_index := 0 }) := by
  constructor
  · intro h
    have := h (some "") (by decide)
    rcases this with h' | h' <;> revert h' <;> decide
  · decide

/-! ## Whole-word regex matching (meeting_prep.py) -/

/-- ASCII model of the regex word class `\w`: letters, digits, underscore. -/
def isWordChar (c : Char) : Bool :=
  c.isAlphanum || c = '_'

/-- True when position `j` of `text` holds a word character. -/
def wordAtPos (text : List Char) (j : Nat) : Bool :=
  match text[j]? with
  | some c => isWordChar c
  | none => false

/-- The regex word boundary `\b` at position `i`: exactly one side of the
position holds a word character. -/
def isBoundary (text : List Char) (i : Nat) : Bool :=
  (if i = 0 then false else wordAtPos text (i - 1)) != wordAtPos text i

/-- The pattern `\b patt \b` matches `text` at position `i`. -/
def matchAt (text patt : List Char) (i : Nat) : Bool :=
  ((text.drop i).take patt.length == patt) && isBoundary text i &&
    isBoundary text (i + patt.length)

/-- The scan loop of `re.finditer`: try each position from left to right,
emit a match and resume after its end.  Fuel bounds the recursion by the
text length. -/
def scanAux (text patt : List Char) (i fuel : Nat) : List Nat :=
  match fuel with
  | 0 => []
  | fuel' + 1 =>
    if i > text.length then []
    else if matchAt text patt i then i :: scanAux text patt (i + max patt.length 1) fuel'
    else scanAux text patt (i + 1) fuel'

/-- All (non-overlapping, leftmost-first) match positions of `\b patt \b`
in `text`, as `re.finditer` produces them. -/
def findMatches (text patt : List Char) : List Nat :=
  scanAux text patt 0 (text.length + 1)

/-- Embeds `find_competitor_mentions` (meeting_prep.py): case-insensitive
whole-word matches of each competitor name against the transcript; every
match yields a `(competitor, context)` pair whose context is the 50
characters of original text on each side of the match, ellipsis-marked when
truncated at a text boundary. -/
def findCompetitorMentions (transcript : String) (competitors : List String) :
    List (String × String) :=
  competitors.flatMap (fun comp =>
    (findMatches (transcript.toList.map Char.toLower) (comp.toList.map Char.toLower)).map
      (fun s =>
        (comp,
          (if 0 < s - 50 then "..." else "") ++
            String.mk ((transcript.toList.drop (s - 50)).take
              (min transcript.toList.length (s + (comp.toList.map Char.toLower).length + 50) -
                (s - 50))) ++
          (if min transcript.toList.length (s + (comp.toList.map Char.toLower).length + 50) <
              transcript.toList.length then "..." else ""))))

/-- The case-insensitive whole-word occurrence positions of `compName` in
`transcript`, phrased as the spec does: every position of the lowered text
where the lowered name occurs delimited by word boundaries. -/
def wholeWordOccurrences (transcript compName : String) : List Nat :=
  (List.range (transcript.toList.length + 1)).filter
    (fun i => matchAt (transcript.toList.map Char.toLower) (compName.toList.map Char.toLower) i)

/-- The context snippet the spec describes for a match of length `len` at
position `s`: up to 50 original-text characters each side, with an ellipsis
exactly on each truncated end. -/
def snippetSpec (transcript : String) (s len : Nat) : String :=
  let chars := transcript.toList
  let start := s - 50
  let stop := min chars.length (s + len + 50)
  (if 0 < start then "..." else "") ++ String.mk ((chars.drop start).take (stop - start)) ++
    (if stop < chars.length then "..." else "")

lemma matchAt_le_length {t p : List Char} {x : Nat} (hp : p ≠ [])
    (h : matchAt t p x = true) : x ≤ t.length ∧ x + p.length ≤ t.length := by
  unfold matchAt at h
  rw [Bool.and_eq_true, Bool.and_eq_true, beq_iff_eq] at h
  have h1 : p.length ≤ (t.drop x).length := by
    conv_lhs => rw [← h.1.1]
    rw [List.length_take]
    exact min_le_right _ _
  rw [List.length_drop] at h1
  have h2 : 0 < p.length := List.length_pos.mpr hp
  omega

lemma scanAux_mem_ge {t p : List Char} :
    ∀ fuel i x, x ∈ scanAux t p i fuel → i ≤ x := by
  intro fuel
  induction fuel with
  | zero => intro i x hx; simp [scanAux] at hx
  | succ fuel ih =>
    intro i x hx
    rw [scanAux] at hx
    by_cases hi : i > t.length
    · rw [if_pos hi] at hx
      exact absurd hx (List.not_mem_nil _)
    · rw [if_neg hi] at hx
      by_cases hm : matchAt t p i = true
      · rw [if_pos hm] at hx
        rcases List.mem_cons.mp hx with h | h
        · exact h ▸ le_refl _
        · have := ih _ _ h
          omega
      · rw [if_neg hm] at hx
        have := ih _ _ hx
        omega

lemma scanAux_sorted {t p : List Char} :
    ∀ fuel i, (scanAux t p i fuel).Sorted (· < ·) := by
  intro fuel
  induction fuel with
  | zero => intro i; simp [scanAux]
  | succ fuel ih =>
    intro i
    rw [scanAux]
    by_cases hi : i > t.length
    · rw [if_pos hi]
      exact List.sorted_nil
    · rw [if_neg hi]
      by_cases hm : matchAt t p i = true
      · rw [if_pos hm]
        rw [List.sorted_cons]
        refine ⟨?_, ih _⟩
        intro y hy
        have := scanAux_mem_ge _ _ _ hy
        have hmax : 1 ≤ max p.length 1 := le_max_right _ _
        omega
      · rw [if_neg hm]
        exact ih _

lemma scanAux_mem {t p : List Char} (hp : p ≠ [])
    (hno : ∀ a b, matchAt t p a = true → matchAt t p b = true → a < b → a + p.length ≤ b) :
    ∀ fuel i, t.length + 1 ≤ fuel + i →
      ∀ x, x ∈ scanAux t p i fuel ↔ (i ≤ x ∧ matchAt t p x = true) := by
  intro fuel
  induction fuel with
  | zero =>
    intro i hfuel x
    simp only [scanAux, List.not_mem_nil, false_iff]
    rintro ⟨hix, hmx⟩
    have := (matchAt_le_length hp hmx).1
    omega
  | succ fuel ih =>
    intro i hfuel x
    rw [scanAux]
    by_cases hi : i > t.length
    · rw [if_pos hi]
      simp only [List.not_mem_nil, false_iff]
      rintro ⟨hix, hmx⟩
      have := (matchAt_le_length hp hmx).1
      omega
    · rw [if_neg hi]
      have hplen : 0 < p.length := List.length_pos.mpr hp
      by_cases hm : matchAt t p i = true
      · rw [if_pos hm]
        have hmax : max p.length 1 = p.length := Nat.max_eq_left hplen
        rw [hmax]
        have hih := ih (i + p.length) (by omega)
        constructor
        · intro hx
          rcases List.mem_cons.mp hx with h | h
          · exact ⟨h ▸ le_refl _, h ▸ hm⟩
          · obtain ⟨h1, h2⟩ := (hih x).mp h
            exact ⟨by omega, h2⟩
        · rintro ⟨hix, hmx⟩
          by_cases hxi : x = i
          · exact hxi ▸ List.mem_cons_self _ _
          · have hlt : i < x := lt_of_le_of_ne hix (Ne.symm hxi)
            have := hno i x hm hmx hlt
            exact List.mem_cons_of_mem _ ((hih x).mpr ⟨this, hmx⟩)
      · rw [if_neg hm]
        have hih := ih (i + 1) (by omega)
        rw [hih x]
        constructor
        · rintro ⟨h1, h2⟩
          exact ⟨by omega, h2⟩
        · rintro ⟨h1, h2⟩
          refine ⟨?_, h2⟩
          rcases Nat.eq_or_lt_of_le h1 with h | h
          · exact absurd (h ▸ h2) hm
          · omega

lemma rel_of_pairwise_sorted {l : List Nat} {R : Nat → Nat → Prop}
    (hpw : l.Pairwise R) (hs : l.Sorted (· < ·)) {a b : Nat}
    (ha : a ∈ l) (hb : b ∈ l) (hab : a < b) : R a b := by
  induction l with
  | nil => exact absurd ha (List.not_mem_nil _)
  | cons h t ih =>
    rw [List.pairwise_cons] at hpw
    rw [List.sorted_cons] at hs
    rcases List.mem_cons.mp ha with ha' | ha'
    · rcases List.mem_cons.mp hb with hb' | hb'
      · omega
      · exact ha' ▸ hpw.1 b hb'
    · rcases List.mem_cons.mp hb with hb' | hb'
      · have := hs.1 a ha'
        omega
      · exact ih hpw.2 hs.2 ha' hb'

lemma findMatches_eq_occurrences {t p : List Char} (hp : p ≠ [])
    (hno : ((List.range (t.length + 1)).filter (fun i => matchAt t p i)).Pairwise
      (fun a b => a + p.length ≤ b)) :
    findMatches t p = (List.range (t.length + 1)).filter (fun i => matchAt t p i) := by
  have hoccsorted : ((List.range (t.length + 1)).filter (fun i => matchAt t p i)).Sorted (· < ·) :=
    List.Pairwise.filter _ (List.pairwise_lt_range _)
  have hno' : ∀ a b, matchAt t p a = true → matchAt t p b = true → a < b → a + p.length ≤ b := by
    intro a b hma hmb hab
    have hamem : a ∈ (List.range (t.length + 1)).filter (fun i => matchAt t p i) := by
      rw [List.mem_filter, List.mem_range]
      exact ⟨by have := (matchAt_le_length hp hma).1; omega, hma⟩
    have hbmem : b ∈ (List.range (t.length + 1)).filter (fun i => matchAt t p i) := by
      rw [List.mem_filter, List.mem_range]
      exact ⟨by have := (matchAt_le_length hp hmb).1; omega, hmb⟩
    exact rel_of_pairwise_sorted hno hoccsorted hamem hbmem hab
  have hmem : ∀ x, x ∈ findMatches t p ↔
      x ∈ (List.range (t.length + 1)).filter (fun i => matchAt t p i) := by
    intro x
    rw [findMatches, scanAux_mem hp hno' (t.length + 1) 0 (by omega) x,
      List.mem_filter, List.mem_range]
    constructor
    · rintro ⟨-, h⟩
      exact ⟨by have := (matchAt_le_length hp h).1; omega, h⟩
    · rintro ⟨-, h⟩
      exact ⟨Nat.zero_le _, h⟩
  have hscansorted : (findMatches t p).Sorted (· < ·) := scanAux_sorted _ _
  exact List.eq_of_perm_of_sorted
    ((List.perm_ext_iff_of_nodup hscansorted.nodup hoccsorted.nodup).mpr hmem)
    hscansorted hoccsorted

/-- C9: competitor-mention detection returns exactly one `(name, snippet)`
pair per case-insensitive whole-word occurrence of each configured
competitor name, in order, with the snippet the spec describes (up to 50
original characters per side, ellipses exactly on truncated ends).  The
hypothesis requires each name to be non-empty and its occurrences to be
non-overlapping, which always holds for names made of word characters. -/
lemma mentions_one_name (transcript name : String) (hne : name ≠ "")
    (hpw : (wholeWordOccurrences transcript name).Pairwise
      (fun a b => a + name.toList.length ≤ b)) :
    (findMatches (transcript.toList.map Char.toLower) (name.toList.map Char.toLower)).map
      (fun s =>
        (name,
          (if 0 < s - 50 then "..." else "") ++
            String.mk ((transcript.toList.drop (s - 50)).take
              (min transcript.toList.length (s + (name.toList.map Char.toLower).length + 50) -
                (s - 50))) ++
          (if min transcript.toList.length (s + (name.toList.map Char.toLower).length + 50) <
              transcript.toList.length then "..." else ""))) =
    (wholeWordOccurrences transcript name).map
      (fun s => (name, snippetSpec transcript s name.toList.length)) := by
  have hplen : (name.toList.map Char.toLower).length = name.toList.length :=
    List.length_map _ _
  have hdata : name.toList ≠ [] := by
    intro hc
    apply hne
    cases name with
    | mk l =>
      simp only [String.toList] at hc
      subst hc
      rfl
  have hpne : name.toList.map Char.toLower ≠ [] := by
    intro hmap
    exact hdata (List.map_eq_nil_iff.mp hmap)
  have hlow : (transcript.toList.map Char.toLower).length = transcript.toList.length :=
    List.length_map _ _
  have hocc : findMatches (transcript.toList.map Char.toLower)
      (name.toList.map Char.toLower) = wholeWordOccurrences transcript name := by
    rw [findMatches_eq_occurrences hpne (by
      rw [hlow]
      have h2 := hpw
      unfold wholeWordOccurrences at h2
      rw [← hplen] at h2
      exact h2)]
    rw [wholeWordOccurrences, hlow]
  rw [hocc]
  apply List.map_congr_left
  intro s hs
  rw [hplen]
  rfl

/-- C9: competitor-mention detection returns exactly one `(name, snippet)`
pair per case-insensitive whole-word occurrence of each configured
competitor name, in order, with the snippet the spec describes (up to 50
original characters per side, ellipses exactly on truncated ends).  The
hypothesis requires each name to be non-empty and its occurrences to be
non-overlapping, which always holds for names made of word characters. -/
theorem c9_competitor_mentions (transcript : String) (competitors : List String)
    (h : ∀ name ∈ competitors, name ≠ "" ∧
      (wholeWordOccurrences transcript name).Pairwise
        (fun a b => a + name.toList.length ≤ b)) :
    findCompetitorMentions transcript competitors =
      competitors.flatMap (fun name =>
        (wholeWordOccurrences transcript name).map
          (fun s => (name, snippetSpec transcript s name.toList.length))) := by
  unfold findCompetitorMentions
  induction competitors with
  | nil => rfl
  | cons name rest ih =>
    rw [List.flatMap_cons, List.flatMap_cons,
      ih (fun n hn => h n (List.mem_cons_of_mem _ hn))]
    congr 1
    obtain ⟨hne, hpw⟩ := h name (List.mem_cons_self _ _)
    exact mentions_one_name transcript name hne hpw

/-- Witness for C9: the name Acme occurs twice (case-insensitively, whole
words) in a concrete transcript. -/
theorem c9_competitor_mentions_witness :
    (∀ name ∈ ["Acme"], name ≠ "" ∧
      (wholeWordOccurrences "I love Acme and acme rocks" name).Pairwise
        (fun a b => a + name.toList.length ≤ b)) ∧
    findCompetitorMentions "I love Acme and acme rocks" ["Acme"] =
      ["Acme"].flatMap (fun name =>
        (wholeWordOccurrences "I love Acme and acme rocks" name).map
          (fun s => (name,
            snippetSpec "I love Acme and acme rocks" s name.toList.length))) :=
  ⟨by decide, c9_competitor_mentions "I love Acme and acme rocks" ["Acme"] (by decide)⟩

/-! ## Events (events.py) and the coaching engine (coaching.py) -/

/-- Event payloads.  The open `data` mapping of events.py is represented as
either a key/value list or a full coaching-alert payload, the two shapes the
embedded code publishes. -/
inductive EventData where
  | kv (pairs : List (String × String))
  | alertPayload (alert : CoachingAlert)
  deriving DecidableEq, Repr

/-- Embeds `Event` (events.py); the wall-clock default timestamp is modelled
as an opaque string. -/
structure Event where
  type : String
  data : EventData
  session_id : String
  timestamp : String := ""
  deriving DecidableEq, Repr

/-- Embeds `TalkingPoint` (session_store.py). -/
structure TalkingPoint where
  topic : String
  priority : Int := 1
  notes : Option String := none
  mentioned : Bool := false
  mentioned_at : Option String := none
  deriving DecidableEq, Repr

/-- Embeds `MeetingPrepContext` (session_store.py) restricted to the fields
the coaching pipeline logic reads; the remaining fields only feed the LLM
prompt text, which is opaque here. -/
structure MeetingPrepContext where
  meeting_type : String := "sales_call"
  objectives : List String := []
  talking_points : List TalkingPoint := []
  competitors : List String := []
  custom_reminders : List String := []
  deriving DecidableEq, Repr

/-- Embeds `check_topic_mentioned` (meeting_prep.py): a case-insensitive
whole-word search of the topic in the transcript. -/
def checkTopicMentioned (transcript topic : String) : Bool :=
  (List.range (transcript.toList.length + 1)).any
    (fun i => matchAt (transcript.toList.map Char.toLower)
      (topic.toList.map Char.toLower) i)

/-- Embeds `update_topic_coverage` (meeting_prep.py): flip every not-yet
mentioned talking point whose topic occurs in the chunk, returning the
updated context and the list of newly covered topics. -/
def updateTopicCoverage (prep : MeetingPrepContext) (chunk : String) (nowIso : String) :
    MeetingPrepContext × List String :=
  ({ prep with
      talking_points := prep.talking_points.map (fun tp =>
        if !tp.mentioned && checkTopicMentioned chunk tp.topic then
          { tp with mentioned := true, mentioned_at := some nowIso }
        else tp) },
   (prep.talking_points.filter
      (fun tp => !tp.mentioned && checkTopicMentioned chunk tp.topic)).map (fun tp => tp.topic))

/-- Embeds the mutable state of `CoachingEngine` (coaching.py).  The
`_last_alert_times` dict is represented as a total function with the
`.get(key, 0)` default baked in. -/
structure CoachingEngineState where
  enabled : Bool := true
  maxAlertsPerChunk : Nat := 2
  alertCooldownSeconds : Int := 180
  recentTranscript : List String := []
  maxRecentChunks : Nat := 10
  lastAlertTimes : String → Int := fun _ => 0
  chunkAlertCount : Nat := 0

/-- Embeds `CoachingEngine._can_send_alert`. -/
def canSendAlert (s : CoachingEngineState) (now : Int) (t : AlertType) : Bool :=
  if s.chunkAlertCount ≥ s.maxAlertsPerChunk then false
  else if now - s.lastAlertTimes t.value < s.alertCooldownSeconds then false
  else true

/-- Embeds `CoachingEngine._record_alert`. -/
def recordAlert (s : CoachingEngineState) (now : Int) (t : AlertType) : CoachingEngineState :=
  { s with
      lastAlertTimes := fun key => if key = t.value then now else s.lastAlertTimes key,
      chunkAlertCount := s.chunkAlertCount + 1 }

/-- The rolling-window update of `analyze_chunk`: append the chunk, then pop
the oldest entry when the window exceeds its maximum. -/
def pushWindow (window : List String) (chunk : String) (maxLen : Nat) : List String :=
  if (window ++ [chunk]).length > maxLen then (window ++ [chunk]).drop 1
  else window ++ [chunk]

/-- The competitor-mention alert built in `analyze_chunk`. -/
def mkCompetitorAlert (competitor context : String) : CoachingAlert :=
  { id := "", alert_type := .competitor_mention,
    content := "Competitor mentioned: " ++ competitor,
    metadata := [("competitor", competitor), ("context", context)] }

/-- The competitor loop of `analyze_chunk`: for each detected mention, stop
at the first rate-limiter refusal (`break`), otherwise emit the alert,
record it and publish a competitor_mention event. -/
def competitorLoop (now : Int) (sessionId : String) :
    CoachingEngineState → List (String × String) →
      CoachingEngineState × List CoachingAlert × List Event
  | s, [] => (s, [], [])
  | s, (competitor, context) :: rest =>
    if !canSendAlert s now .competitor_mention then (s, [], [])
    else
      let s' := recordAlert s now .competitor_mention
      let next := competitorLoop now sessionId s' rest
      (next.1, mkCompetitorAlert competitor context :: next.2.1,
        { type := "competitor_mention",
          data := .kv [("competitor", competitor), ("context", context)],
          session_id := sessionId } :: next.2.2)

/-- The LLM-alert loop of `analyze_chunk`: for each candidate alert, skip it
on rate-limiter refusal (`continue`), otherwise emit it, record it and
publish a coaching_alert event. -/
def llmLoop (now : Int) (sessionId : String) :
    CoachingEngineState → List CoachingAlert →
      CoachingEngineState × List CoachingAlert × List Event
  | s, [] => (s, [], [])
  | s, alert :: rest =>
    if !canSendAlert s now alert.alert_type then llmLoop now sessionId s rest
    else
      let s' := recordAlert s now alert.alert_type
      let next := llmLoop now sessionId s' rest
      (next.1, alert :: next.2.1,
        { type := "coaching_alert", data := .alertPayload alert,
          session_id := sessionId } :: next.2.2)

/-- Everything `analyze_chunk` produces: the returned result (alerts and
covered topics), the engine state afterwards, the alerts persisted to the
alert log in order, the events published in order, and the meeting-prep
document persisted by topic coverage, if any. -/
structure AnalyzeOutput where
  alerts : List CoachingAlert
  topicsCovered : List String
  engine : CoachingEngineState
  appended : List CoachingAlert
  published : List Event
  prepSaved : Option MeetingPrepContext

/-- The competitor mentions `analyze_chunk` computes: the local regex pass,
guarded by `prep.competitors` being non-empty. -/
def mentionsOf (p : MeetingPrepContext) (chunkText : String) : List (String × String) :=
  if p.competitors ≠ [] then findCompetitorMentions chunkText p.competitors else []

/-- Step 4 of `analyze_chunk`: run the LLM alert loop only when the per-chunk
cap has not yet been reached; an LLM exception contributes nothing. -/
def llmPart (now : Int) (sessionId : String) (c : CoachingEngineState)
    (llmResult : Except Unit (List CoachingAlert)) :
    CoachingEngineState × List CoachingAlert × List Event :=
  if c.chunkAlertCount < c.maxAlertsPerChunk then
    match llmResult with
    | .ok cands => llmLoop now sessionId c cands
    | .error _ => (c, [], [])
  else (c, [], [])

/-- The main body of `analyze_chunk` once the engine is enabled, prep is
present and the chunk is not silence; `s1` is the engine state after the
counter reset and window update. -/
def analyzeActive (s1 : CoachingEngineState) (p : MeetingPrepContext)
    (chunkText : String) (sessionId : String) (now : Int) (nowIso : String)
    (llmResult : Except Unit (List CoachingAlert)) : AnalyzeOutput :=
  { alerts := (competitorLoop now sessionId s1 (mentionsOf p chunkText)).2.1 ++
      (llmPart now sessionId (competitorLoop now sessionId s1 (mentionsOf p chunkText)).1
        llmResult).2.1,
    topicsCovered := (updateTopicCoverage p chunkText nowIso).2,
    engine := (llmPart now sessionId
      (competitorLoop now sessionId s1 (mentionsOf p chunkText)).1 llmResult).1,
    appended := (competitorLoop now sessionId s1 (mentionsOf p chunkText)).2.1 ++
      (llmPart now sessionId (competitorLoop now sessionId s1 (mentionsOf p chunkText)).1
        llmResult).2.1,
    published := (competitorLoop now sessionId s1 (mentionsOf p chunkText)).2.2 ++
      (llmPart now sessionId (competitorLoop now sessionId s1 (mentionsOf p chunkText)).1
        llmResult).2.2,
    prepSaved := if (updateTopicCoverage p chunkText nowIso).2 ≠ [] then
      some (updateTopicCoverage p chunkText nowIso).1 else none }

/-- The first two mutations of `analyze_chunk` on an enabled engine: reset
the per-chunk alert counter and push the chunk into the rolling window. -/
def resetWindowState (s : CoachingEngineState) (chunkText : String) : CoachingEngineState :=
  { s with
      chunkAlertCount := 0,
      recentTranscript := pushWindow s.recentTranscript chunkText s.maxRecentChunks }

/-- Embeds `CoachingEngine.analyze_chunk` (coaching.py).  External
nondeterminism enters as parameters: `now` is the clock read, `nowIso` the
timestamp written into flipped talking points, and `llmResult` the outcome
of `_analyze_with_llm` (exception or parsed candidate alerts). -/
def analyzeChunk (s : CoachingEngineState) (prep : Option MeetingPrepContext)
    (chunkText : String) (sessionId : String) (now : Int) (nowIso : String)
    (llmResult : Except Unit (List CoachingAlert)) : AnalyzeOutput :=
  if !s.enabled then
    { alerts := [], topicsCovered := [], engine := s, appended := [], published := [],
      prepSaved := none }
  else
    match prep with
    | none =>
      { alerts := [], topicsCovered := [], engine := resetWindowState s chunkText,
        appended := [], published := [], prepSaved := none }
    | some p =>
      if pyStrip chunkText == "" || pyStrip chunkText == "(silence)" then
        { alerts := [], topicsCovered := [], engine := resetWindowState s chunkText,
          appended := [], published := [], prepSaved := none }
      else analyzeActive (resetWindowState s chunkText) p chunkText sessionId now nowIso llmResult

/-! ### Rate limiter lemmas -/

lemma canSendAlert_true {s : CoachingEngineState} {now : Int} {t : AlertType}
    (h : canSendAlert s now t = true) :
    s.chunkAlertCount < s.maxAlertsPerChunk ∧
      s.alertCooldownSeconds ≤ now - s.lastAlertTimes t.value := by
  unfold canSendAlert at h
  split_ifs at h with h1 h2
  · exact ⟨lt_of_not_ge h1, le_of_not_lt h2⟩

lemma llmLoop_spec (now : Int) (sid : String) (cands : List CoachingAlert)
    (s : CoachingEngineState) :
    (llmLoop now sid s cands).1.maxAlertsPerChunk = s.maxAlertsPerChunk ∧
    (llmLoop now sid s cands).1.alertCooldownSeconds = s.alertCooldownSeconds ∧
    (llmLoop now sid s cands).1.recentTranscript = s.recentTranscript ∧
    (llmLoop now sid s cands).1.chunkAlertCount =
      s.chunkAlertCount + (llmLoop now sid s cands).2.1.length ∧
    ((llmLoop now sid s cands).2.1 ≠ [] →
      (llmLoop now sid s cands).1.chunkAlertCount ≤ s.maxAlertsPerChunk) ∧
    (llmLoop now sid s cands).2.1.Sublist cands ∧
    (∀ k, (llmLoop now sid s cands).1.lastAlertTimes k = s.lastAlertTimes k ∨
      ((llmLoop now sid s cands).1.lastAlertTimes k = now ∧
        s.alertCooldownSeconds ≤ now - s.lastAlertTimes k)) ∧
    (∀ a ∈ (llmLoop now sid s cands).2.1,
      s.alertCooldownSeconds ≤ now - s.lastAlertTimes a.alert_type.value ∧
      (llmLoop now sid s cands).1.lastAlertTimes a.alert_type.value = now) ∧
    (0 < s.alertCooldownSeconds → ∀ T : AlertType, s.lastAlertTimes T.value = now →
      ∀ a ∈ (llmLoop now sid s cands).2.1, a.alert_type ≠ T) ∧
    (0 < s.alertCooldownSeconds → ∀ T : AlertType,
      ((llmLoop now sid s cands).2.1.filter (fun a => a.alert_type == T)).length ≤ 1) := by
  induction cands generalizing s with
  | nil =>
    refine ⟨rfl, rfl, rfl, by simp [llmLoop], by simp [llmLoop], by simp [llmLoop],
      fun k => Or.inl rfl, by simp [llmLoop], by simp [llmLoop], by simp [llmLoop]⟩
  | cons alert rest ih =>
    by_cases hcs : canSendAlert s now alert.alert_type = true
    · have hred : llmLoop now sid s (alert :: rest) =
          ((llmLoop now sid (recordAlert s now alert.alert_type) rest).1,
            alert :: (llmLoop now sid (recordAlert s now alert.alert_type) rest).2.1,
            { type := "coaching_alert", data := .alertPayload alert, session_id := sid } ::
              (llmLoop now sid (recordAlert s now alert.alert_type) rest).2.2) := by
        simp [llmLoop, hcs]
      obtain ⟨hcd0, hcd1⟩ := canSendAlert_true hcs
      obtain ⟨i1, i2, i3, i4, i5, i6, i7, i8, i9, i10⟩ :=
        ih (recordAlert s now alert.alert_type)
      have hrecmax : (recordAlert s now alert.alert_type).maxAlertsPerChunk =
          s.maxAlertsPerChunk := rfl
      have hreccd : (recordAlert s now alert.alert_type).alertCooldownSeconds =
          s.alertCooldownSeconds := rfl
      have hreccount : (recordAlert s now alert.alert_type).chunkAlertCount =
          s.chunkAlertCount + 1 := rfl
      have hrectime : ∀ k, (recordAlert s now alert.alert_type).lastAlertTimes k =
          if k = alert.alert_type.value then now else s.lastAlertTimes k := fun _ => rfl
      rw [hred]
      refine ⟨by rw [i1]; rfl, by rw [i2]; rfl, by rw [i3]; rfl, ?_, ?_, ?_, ?_, ?_, ?_, ?_⟩
      · simp only [List.length_cons]
        rw [i4, hreccount]
        omega
      · intro hne
        rcases hemit : (llmLoop now sid (recordAlert s now alert.alert_type) rest).2.1 with
          _ | ⟨b, bs⟩
        · rw [i4, hemit, hreccount]
          simp only [List.length_nil]
          omega
        · have := i5 (by rw [hemit]; simp)
          rw [hrecmax] at this
          exact this
      · exact List.Sublist.cons₂ _ i6
      · intro k
        rcases i7 k with h | ⟨h1, h2⟩
        · rw [h, hrectime k]
          by_cases hk : k = alert.alert_type.value
          · subst hk
            rw [if_pos rfl]
            exact Or.inr ⟨rfl, hcd1⟩
          · rw [if_neg hk]
            exact Or.inl rfl
        · rw [hrectime k] at h2
          by_cases hk : k = alert.alert_type.value
          · subst hk
            rw [if_pos rfl] at h2
            exact Or.inr ⟨h1, hcd1⟩
          · rw [if_neg hk] at h2
            rw [hreccd] at h2
            exact Or.inr ⟨h1, h2⟩
      · intro a ha
        rcases List.mem_cons.mp ha with h | h
        · subst h
          refine ⟨hcd1, ?_⟩
          rcases i7 a.alert_type.value with h' | ⟨h', -⟩
          · rw [h', hrectime, if_pos rfl]
          · exact h'
        · obtain ⟨h1, h2⟩ := i8 a h
          rw [hrectime, hreccd] at h1
          refine ⟨?_, h2⟩
          by_cases hk : a.alert_type.value = alert.alert_type.value
          · rw [if_pos hk] at h1
            have : s.alertCooldownSeconds ≤ now - s.lastAlertTimes alert.alert_type.value :=
              hcd1
            rw [← hk] at this
            exact this
          · rw [if_neg hk] at h1
            exact h1
      · intro hpos T hT a ha
        rcases List.mem_cons.mp ha with h | h
        · subst h
          intro hTy
          rw [hTy] at hcd1
          rw [hT] at hcd1
          omega
        · refine i9 (by rw [hreccd]; exact hpos) T ?_ a h
          rw [hrectime]
          by_cases hk : T.value = alert.alert_type.value
          · rw [if_pos hk]
          · rw [if_neg hk]
            exact hT
      · intro hpos T
        by_cases hT : alert.alert_type = T
        · subst hT
          rw [List.filter_cons_of_pos (by simp)]
          simp only [List.length_cons]
          have hrest : ∀ a ∈ (llmLoop now sid (recordAlert s now alert.alert_type) rest).2.1,
              a.alert_type ≠ alert.alert_type := by
            refine i9 (by rw [hreccd]; exact hpos) alert.alert_type ?_
            rw [hrectime, if_pos rfl]
          have : ((llmLoop now sid (recordAlert s now alert.alert_type) rest).2.1.filter
              (fun a => a.alert_type == alert.alert_type)) = [] := by
            rw [List.filter_eq_nil_iff]
            intro a ha
            simp only [beq_iff_eq]
            exact hrest a ha
          rw [this]
          simp
        · rw [List.filter_cons_of_neg (by simp [hT])]
          exact i10 (by rw [hreccd]; exact hpos) T
    · have hred : llmLoop now sid s (alert :: rest) = llmLoop now sid s rest := by
        simp [llmLoop, hcs]
      rw [hred]
      obtain ⟨i1, i2, i3, i4, i5, i6, i7, i8, i9, i10⟩ := ih s
      exact ⟨i1, i2, i3, i4, i5, i6.trans (List.sublist_cons_self _ _), i7, i8, i9, i10⟩

lemma competitorLoop_spec (now : Int) (sid : String) (mentions : List (String × String))
    (s : CoachingEngineState) :
    (competitorLoop now sid s mentions).1.maxAlertsPerChunk = s.maxAlertsPerChunk ∧
    (competitorLoop now sid s mentions).1.alertCooldownSeconds = s.alertCooldownSeconds ∧
    (competitorLoop now sid s mentions).1.recentTranscript = s.recentTranscript ∧
    (competitorLoop now sid s mentions).1.chunkAlertCount =
      s.chunkAlertCount + (competitorLoop now sid s mentions).2.1.length ∧
    ((competitorLoop now sid s mentions).2.1 ≠ [] →
      (competitorLoop now sid s mentions).1.chunkAlertCount ≤ s.maxAlertsPerChunk) ∧
    (competitorLoop now sid s mentions).2.1 =
      (mentions.take (competitorLoop now sid s mentions).2.1.length).map
        (fun m => mkCompetitorAlert m.1 m.2) ∧
    (∀ k, (competitorLoop now sid s mentions).1.lastAlertTimes k = s.lastAlertTimes k ∨
      ((competitorLoop now sid s mentions).1.lastAlertTimes k = now ∧
        s.alertCooldownSeconds ≤ now - s.lastAlertTimes k)) ∧
    (∀ a ∈ (competitorLoop now sid s mentions).2.1,
      s.alertCooldownSeconds ≤ now - s.lastAlertTimes a.alert_type.value ∧
      (competitorLoop now sid s mentions).1.lastAlertTimes a.alert_type.value = now) ∧
    (0 < s.alertCooldownSeconds → ∀ T : AlertType, s.lastAlertTimes T.value = now →
      ∀ a ∈ (competitorLoop now sid s mentions).2.1, a.alert_type ≠ T) ∧
    (0 < s.alertCooldownSeconds → ∀ T : AlertType,
      ((competitorLoop now sid s mentions).2.1.filter
        (fun a => a.alert_type == T)).length ≤ 1) := by
  induction mentions generalizing s with
  | nil =>
    refine ⟨rfl, rfl, rfl, by simp [competitorLoop], by simp [competitorLoop],
      by simp [competitorLoop], fun k => Or.inl rfl, by simp [competitorLoop],
      by simp [competitorLoop], by simp [competitorLoop]⟩
  | cons m rest ih =>
    obtain ⟨competitor, context⟩ := m
    by_cases hcs : canSendAlert s now AlertType.competitor_mention = true
    · have hred : competitorLoop now sid s ((competitor, context) :: rest) =
          ((competitorLoop now sid (recordAlert s now .competitor_mention) rest).1,
            mkCompetitorAlert competitor context ::
              (competitorLoop now sid (recordAlert s now .competitor_mention) rest).2.1,
            { type := "competitor_mention",
              data := .kv [("competitor", competitor), ("context", context)],
              session_id := sid } ::
              (competitorLoop now sid (recordAlert s now .competitor_mention) rest).2.2) := by
        simp [competitorLoop, hcs]
      obtain ⟨hcd0, hcd1⟩ := canSendAlert_true hcs
      obtain ⟨i1, i2, i3, i4, i5, i6, i7, i8, i9, i10⟩ :=
        ih (recordAlert s now .competitor_mention)
      have hreccd : (recordAlert s now AlertType.competitor_mention).alertCooldownSeconds =
          s.alertCooldownSeconds := rfl
      have hreccount : (recordAlert s now AlertType.competitor_mention).chunkAlertCount =
          s.chunkAlertCount + 1 := rfl
      have hrectime : ∀ k, (recordAlert s now AlertType.competitor_mention).lastAlertTimes k =
          if k = AlertType.competitor_mention.value then now else s.lastAlertTimes k :=
        fun _ => rfl
      rw [hred]
      refine ⟨by rw [i1]; rfl, by rw [i2]; rfl, by rw [i3]; rfl, ?_, ?_, ?_, ?_, ?_, ?_, ?_⟩
      · simp only [List.length_cons]
        rw [i4, hreccount]
        omega
      · intro hne
        rcases hemit : (competitorLoop now sid (recordAlert s now .competitor_mention)
            rest).2.1 with _ | ⟨b, bs⟩
        · rw [i4, hemit, hreccount]
          simp only [List.length_nil]
          omega
        · have := i5 (by rw [hemit]; simp)
          rw [show (recordAlert s now AlertType.competitor_mention).maxAlertsPerChunk =
            s.maxAlertsPerChunk from rfl] at this
          exact this
      · simp only [List.length_cons, List.take_succ_cons, List.map_cons]
        rw [← i6]
      · intro k
        rcases i7 k with h | ⟨h1, h2⟩
        · rw [h, hrectime k]
          by_cases hk : k = AlertType.competitor_mention.value
          · subst hk
            rw [if_pos rfl]
            exact Or.inr ⟨rfl, hcd1⟩
          · rw [if_neg hk]
            exact Or.inl rfl
        · rw [hrectime k] at h2
          by_cases hk : k = AlertType.competitor_mention.value
          · subst hk
            rw [if_pos rfl] at h2
            exact Or.inr ⟨h1, hcd1⟩
          · rw [if_neg hk] at h2
            rw [hreccd] at h2
            exact Or.inr ⟨h1, h2⟩
      · intro a ha
        rcases List.mem_cons.mp ha with h | h
        · subst h
          refine ⟨hcd1, ?_⟩
          show (competitorLoop now sid (recordAlert s now .competitor_mention)
            rest).1.lastAlertTimes AlertType.competitor_mention.value = now
          rcases i7 (AlertType.competitor_mention.value) with h' | ⟨h', -⟩
          · rw [h', hrectime, if_pos rfl]
          · exact h'
        · obtain ⟨h1, h2⟩ := i8 a h
          rw [hrectime, hreccd] at h1
          refine ⟨?_, h2⟩
          by_cases hk : a.alert_type.value = AlertType.competitor_mention.value
          · rw [if_pos hk] at h1
            have := hcd1
            rw [← hk] at this
            exact this
          · rw [if_neg hk] at h1
            exact h1
      · intro hpos T hT a ha
        rcases List.mem_cons.mp ha with h | h
        · subst h
          intro hTy
          have heq : (mkCompetitorAlert competitor context).alert_type =
              AlertType.competitor_mention := rfl
          rw [heq] at hTy
          rw [← hTy] at hT
          rw [hT] at hcd1
          omega
        · refine i9 (by rw [hreccd]; exact hpos) T ?_ a h
          rw [hrectime]
          by_cases hk : T.value = AlertType.competitor_mention.value
          · rw [if_pos hk]
          · rw [if_neg hk]
            exact hT
      · intro hpos T
        by_cases hT : (mkCompetitorAlert competitor context).alert_type = T
        · rw [List.filter_cons_of_pos (by simp [hT])]
          simp only [List.length_cons]
          have hrest : ∀ a ∈ (competitorLoop now sid
              (recordAlert s now .competitor_mention) rest).2.1, a.alert_type ≠ T := by
            refine i9 (by rw [hreccd]; exact hpos) T ?_
            rw [hrectime]
            rw [show T = AlertType.competitor_mention from by
              rw [← hT]; rfl]
            rw [if_pos rfl]
          have : ((competitorLoop now sid (recordAlert s now .competitor_mention)
              rest).2.1.filter (fun a => a.alert_type == T)) = [] := by
            rw [List.filter_eq_nil_iff]
            intro a ha
            simp only [beq_iff_eq]
            exact hrest a ha
          rw [this]
          simp
        · rw [List.filter_cons_of_neg (by simp [hT])]
          exact i10 (by rw [hreccd]; exact hpos) T
    · have hred : competitorLoop now sid s ((competitor, context) :: rest) = (s, [], []) := by
        simp [competitorLoop, hcs]
      rw [hred]
      exact ⟨rfl, rfl, rfl, by simp, by simp, by simp, fun k => Or.inl rfl, by simp,
        by simp, by simp⟩

lemma llmPart_spec (now : Int) (sid : String) (c : CoachingEngineState)
    (llm : Except Unit (List CoachingAlert)) :
    (llmPart now sid c llm).1.maxAlertsPerChunk = c.maxAlertsPerChunk ∧
    (llmPart now sid c llm).1.alertCooldownSeconds = c.alertCooldownSeconds ∧
    (llmPart now sid c llm).1.recentTranscript = c.recentTranscript ∧
    (llmPart now sid c llm).1.chunkAlertCount =
      c.chunkAlertCount + (llmPart now sid c llm).2.1.length ∧
    ((llmPart now sid c llm).2.1 ≠ [] →
      (llmPart now sid c llm).1.chunkAlertCount ≤ c.maxAlertsPerChunk) ∧
    (llmPart now sid c llm).2.1.Sublist
      (match llm with | .ok cands => cands | .error _ => []) ∧
    (∀ k, (llmPart now sid c llm).1.lastAlertTimes k = c.lastAlertTimes k ∨
      ((llmPart now sid c llm).1.lastAlertTimes k = now ∧
        c.alertCooldownSeconds ≤ now - c.lastAlertTimes k)) ∧
    (∀ a ∈ (llmPart now sid c llm).2.1,
      c.alertCooldownSeconds ≤ now - c.lastAlertTimes a.alert_type.value ∧
      (llmPart now sid c llm).1.lastAlertTimes a.alert_type.value = now) ∧
    (0 < c.alertCooldownSeconds → ∀ T : AlertType, c.lastAlertTimes T.value = now →
      ∀ a ∈ (llmPart now sid c llm).2.1, a.alert_type ≠ T) ∧
    (0 < c.alertCooldownSeconds → ∀ T : AlertType,
      ((llmPart now sid c llm).2.1.filter (fun a => a.alert_type == T)).length ≤ 1) := by
  by_cases hg : c.chunkAlertCount < c.maxAlertsPerChunk
  · rcases llm with e | cands
    · have h : llmPart now sid c (.error e) = (c, [], []) := by simp [llmPart, hg]
      rw [h]
      exact ⟨rfl, rfl, rfl, by simp, by simp, by simp, fun k => Or.inl rfl, by simp,
        by simp, by simp⟩
    · have h : llmPart now sid c (.ok cands) = llmLoop now sid c cands := by
        simp [llmPart, hg]
      rw [h]
      exact llmLoop_spec now sid cands c
  · have h : llmPart now sid c llm = (c, [], []) := by simp [llmPart, hg]
    rw [h]
    refine ⟨rfl, rfl, rfl, by simp, by simp, ?_, fun k => Or.inl rfl, by simp,
      by simp, by simp⟩
    exact List.nil_sublist _

lemma analyzeActive_spec (s1 : CoachingEngineState) (p : MeetingPrepContext)
    (txt sid : String) (now : Int) (nowIso : String)
    (llm : Except Unit (List CoachingAlert)) (hcount : s1.chunkAlertCount = 0) :
    (analyzeActive s1 p txt sid now nowIso llm).alerts.length ≤ s1.maxAlertsPerChunk ∧
    (analyzeActive s1 p txt sid now nowIso llm).engine.alertCooldownSeconds =
      s1.alertCooldownSeconds ∧
    (∀ a ∈ (analyzeActive s1 p txt sid now nowIso llm).alerts,
      s1.alertCooldownSeconds ≤ now - s1.lastAlertTimes a.alert_type.value) ∧
    (∀ a ∈ (analyzeActive s1 p txt sid now nowIso llm).alerts,
      (analyzeActive s1 p txt sid now nowIso llm).engine.lastAlertTimes
        a.alert_type.value = now) ∧
    (0 < s1.alertCooldownSeconds → ∀ T : AlertType,
      ((analyzeActive s1 p txt sid now nowIso llm).alerts.filter
        (fun a => a.alert_type == T)).length ≤ 1) ∧
    (∃ ca la, (analyzeActive s1 p txt sid now nowIso llm).alerts = ca ++ la ∧
      (∀ a ∈ ca, a.alert_type = AlertType.competitor_mention) ∧
      la.Sublist (match llm with | .ok cands => cands | .error _ => [])) := by
  obtain ⟨c1, c2, c3, c4, c5', c6, c7, c8, c9', c10⟩ :=
    competitorLoop_spec now sid (mentionsOf p txt) s1
  obtain ⟨l1, l2, l3, l4, l5, l6, l7, l8, l9, l10⟩ :=
    llmPart_spec now sid (competitorLoop now sid s1 (mentionsOf p txt)).1 llm
  set C := competitorLoop now sid s1 (mentionsOf p txt) with hC
  set P := llmPart now sid C.1 llm with hP
  have halerts : (analyzeActive s1 p txt sid now nowIso llm).alerts = C.2.1 ++ P.2.1 := rfl
  have hengine : (analyzeActive s1 p txt sid now nowIso llm).engine = P.1 := rfl
  refine ⟨?_, ?_, ?_, ?_, ?_, ?_⟩
  · rw [halerts, List.length_append]
    by_cases hPe : P.2.1 = []
    · by_cases hCe : C.2.1 = []
      · rw [hPe, hCe]
        simp
      · have h5 := c5' hCe
        rw [hPe]
        simp only [List.length_nil]
        omega
    · have h5 := l5 hPe
      rw [c1] at h5
      omega
  · rw [hengine, l2, c2]
  · intro a ha
    rw [halerts] at ha
    rcases List.mem_append.mp ha with h | h
    · exact (c8 a h).1
    · have h8 := (l8 a h).1
      rw [c2] at h8
      rcases c7 a.alert_type.value with h7 | ⟨-, h7⟩
      · rw [h7] at h8
        exact h8
      · exact h7
  · intro a ha
    rw [halerts] at ha
    rw [hengine]
    rcases List.mem_append.mp ha with h | h
    · have h8 := (c8 a h).2
      rcases l7 a.alert_type.value with h7 | ⟨h7, -⟩
      · rw [h7, h8]
      · exact h7
    · exact (l8 a h).2
  · intro hpos T
    rw [halerts, List.filter_append, List.length_append]
    rcases hcf : C.2.1.filter (fun a => a.alert_type == T) with _ | ⟨a0, rest0⟩
    · have := l10 (by rw [c2]; exact hpos) T
      rw [hcf]
      simp only [List.length_nil]
      omega
    · have ha0 : a0 ∈ C.2.1.filter (fun a => a.alert_type == T) := by
        rw [hcf]
        exact List.mem_cons_self _ _
      rw [List.mem_filter] at ha0
      obtain ⟨ha0m, ha0T⟩ := ha0
      have ha0T' : a0.alert_type = T := by simpa using ha0T
      have hCtime : C.1.lastAlertTimes T.value = now := by
        have := (c8 a0 ha0m).2
        rw [ha0T'] at this
        exact this
      have hnoLlm : ∀ b ∈ P.2.1, b.alert_type ≠ T :=
        l9 (by rw [c2]; exact hpos) T hCtime
      have hPfilter : P.2.1.filter (fun a => a.alert_type == T) = [] := by
        rw [List.filter_eq_nil_iff]
        intro b hb
        simp only [beq_iff_eq]
        exact hnoLlm b hb
      rw [hcf, hPfilter]
      have := c10 hpos T
      rw [hcf] at this
      simp only [List.length_cons, List.length_nil] at this ⊢
      omega
  · refine ⟨C.2.1, P.2.1, halerts, ?_, l6⟩
    intro a ha
    rw [c6] at ha
    obtain ⟨m, -, hm⟩ := List.mem_map.mp ha
    rw [← hm]
    rfl

lemma analyzeChunk_spec (s : CoachingEngineState) (prep : Option MeetingPrepContext)
    (txt sid : String) (now : Int) (nowIso : String)
    (llm : Except Unit (List CoachingAlert)) :
    (analyzeChunk s prep txt sid now nowIso llm).alerts.length ≤ s.maxAlertsPerChunk ∧
    (analyzeChunk s prep txt sid now nowIso llm).engine.alertCooldownSeconds =
      s.alertCooldownSeconds ∧
    (∀ a ∈ (analyzeChunk s prep txt sid now nowIso llm).alerts,
      s.alertCooldownSeconds ≤ now - s.lastAlertTimes a.alert_type.value) ∧
    (∀ a ∈ (analyzeChunk s prep txt sid now nowIso llm).alerts,
      (analyzeChunk s prep txt sid now nowIso llm).engine.lastAlertTimes
        a.alert_type.value = now) ∧
    (0 < s.alertCooldownSeconds → ∀ T : AlertType,
      ((analyzeChunk s prep txt sid now nowIso llm).alerts.filter
        (fun a => a.alert_type == T)).length ≤ 1) ∧
    (∃ ca la, (analyzeChunk s prep txt sid now nowIso llm).alerts = ca ++ la ∧
      (∀ a ∈ ca, a.alert_type = AlertType.competitor_mention) ∧
      la.Sublist (match llm with | .ok cands => cands | .error _ => [])) := by
  by_cases he : s.enabled
  · rcases prep with _ | p
    · have h : analyzeChunk s none txt sid now nowIso llm =
          { alerts := [], topicsCovered := [], engine := resetWindowState s txt,
            appended := [], published := [], prepSaved := none } := by
        simp [analyzeChunk, he]
      rw [h]
      exact ⟨by simp, rfl, by simp, by simp, by simp, ⟨[], [], rfl, by simp,
        List.nil_sublist _⟩⟩
    · by_cases hsil : (pyStrip txt == "" || pyStrip txt == "(silence)") = true
      · have h : analyzeChunk s (some p) txt sid now nowIso llm =
            { alerts := [], topicsCovered := [], engine := resetWindowState s txt,
              appended := [], published := [], prepSaved := none } := by
          simp only [analyzeChunk, he, Bool.not_true, if_false]
          rw [if_pos hsil]
          simp
        rw [h]
        exact ⟨by simp, rfl, by simp, by simp, by simp, ⟨[], [], rfl, by simp,
          List.nil_sublist _⟩⟩
      · have h : analyzeChunk s (some p) txt sid now nowIso llm =
            analyzeActive (resetWindowState s txt) p txt sid now nowIso llm := by
          simp only [analyzeChunk, he, Bool.not_true, if_false]
          rw [if_neg hsil]
          simp
        rw [h]
        exact analyzeActive_spec _ p txt sid now nowIso llm rfl
  · have he' : s.enabled = false := by simpa using he
    have h : analyzeChunk s prep txt sid now nowIso llm =
        { alerts := [], topicsCovered := [], engine := s, appended := [], published := [],
          prepSaved := none } := by
      simp [analyzeChunk, he']
    rw [h]
    exact ⟨by simp, rfl, by simp, by simp, by simp, ⟨[], [], rfl, by simp,
      List.nil_sublist _⟩⟩

/-- C5: the coaching rate limiter.  One `analyze_chunk` call emits at most
`maxAlertsPerChunk` alerts; the emitted list is competitor-mention alerts
followed by a subsequence of the LLM candidates (considered in that fixed
order, candidates beyond the cap discarded rather than queued); every
emitted alert respects the per-type cooldown against the pre-call state; at
most one alert per type is emitted per call; and a second call within the
cooldown window never emits another alert of a type emitted by the first
call. -/
theorem c5_rate_limiting (s : CoachingEngineState) (prep : Option MeetingPrepContext)
    (txt sid : String) (now : Int) (nowIso : String)
    (llm : Except Unit (List CoachingAlert)) (hcd : 0 < s.alertCooldownSeconds) :
    (analyzeChunk s prep txt sid now nowIso llm).alerts.length ≤ s.maxAlertsPerChunk ∧
    (∃ ca la, (analyzeChunk s prep txt sid now nowIso llm).alerts = ca ++ la ∧
      (∀ a ∈ ca, a.alert_type = AlertType.competitor_mention) ∧
      la.Sublist (match llm with | .ok cands => cands | .error _ => [])) ∧
    (∀ a ∈ (analyzeChunk s prep txt sid now nowIso llm).alerts,
      s.alertCooldownSeconds ≤ now - s.lastAlertTimes a.alert_type.value) ∧
    (∀ T : AlertType,
      ((analyzeChunk s prep txt sid now nowIso llm).alerts.filter
        (fun a => a.alert_type == T)).length ≤ 1) ∧
    (∀ (prep2 : Option MeetingPrepContext) (txt2 sid2 nowIso2 : String) (now2 : Int)
        (llm2 : Except Unit (List CoachingAlert)) (T : AlertType),
      (∃ a ∈ (analyzeChunk s prep txt sid now nowIso llm).alerts, a.alert_type = T) →
      now2 - now < s.alertCooldownSeconds →
      ∀ b ∈ (analyzeChunk (analyzeChunk s prep txt sid now nowIso llm).engine
          prep2 txt2 sid2 now2 nowIso2 llm2).alerts, b.alert_type ≠ T) := by
  obtain ⟨a1, a2, a3, a4, a5, a6⟩ := analyzeChunk_spec s prep txt sid now nowIso llm
  refine ⟨a1, a6, a3, a5 hcd, ?_⟩
  intro prep2 txt2 sid2 nowIso2 now2 llm2 T hex hlt b hb hbT
  obtain ⟨a, ha, haT⟩ := hex
  have h4 := a4 a ha
  rw [haT] at h4
  obtain ⟨-, -, b3, -, -, -⟩ :=
    analyzeChunk_spec (analyzeChunk s prep txt sid now nowIso llm).engine
      prep2 txt2 sid2 now2 nowIso2 llm2
  have h3 := b3 b hb
  rw [hbT, h4, a2] at h3
  omega

/-- Witness for C5: a fresh default engine (cap 2, cooldown 180s) analyzing
a chunk emits at most two alerts. -/
theorem c5_rate_limiting_witness :
    0 < ({} : CoachingEngineState).alertCooldownSeconds ∧
    (analyzeChunk {} none "hello" "s1" 1000 "t" (.error ())).alerts.length ≤
      ({} : CoachingEngineState).maxAlertsPerChunk :=
  ⟨by decide, (c5_rate_limiting {} none "hello" "s1" 1000 "t" (.error ()) (by decide)).1⟩

/-- Counterexample for C6: with the engine enabled but no meeting-prep
context, `analyze_chunk` returns no alerts yet still mutates the engine:
the chunk is pushed into the rolling transcript window before the early
return. -/
theorem c6_counterexample :
    (analyzeChunk {} none "hello" "s1" 0 "t" (.error ())).alerts = [] ∧
    (analyzeChunk {} none "hello" "s1" 0 "t" (.error ())).engine.recentTranscript ≠
      ({} : CoachingEngineState).recentTranscript := by
  constructor
  · rfl
  · decide

/-- C6 (amended): a globally disabled engine returns no alerts and has no
side effects at all; an enabled engine with no meeting-prep context returns
no alerts, persists nothing and publishes nothing, and leaves the cooldown
clocks untouched, but it does reset the per-chunk counter and push the
chunk into the rolling transcript window. -/
theorem c6_disabled_no_prep (s : CoachingEngineState)
    (prep : Option MeetingPrepContext) (txt sid nowIso : String) (now : Int)
    (llm : Except Unit (List CoachingAlert)) :
    (s.enabled = false →
      analyzeChunk s prep txt sid now nowIso llm =
        { alerts := [], topicsCovered := [], engine := s, appended := [],
          published := [], prepSaved := none }) ∧
    (s.enabled = true → prep = none →
      (analyzeChunk s prep txt sid now nowIso llm).alerts = [] ∧
      (analyzeChunk s prep txt sid now nowIso llm).topicsCovered = [] ∧
      (analyzeChunk s prep txt sid now nowIso llm).appended = [] ∧
      (analyzeChunk s prep txt sid now nowIso llm).published = [] ∧
      (analyzeChunk s prep txt sid now nowIso llm).prepSaved = none ∧
      (analyzeChunk s prep txt sid now nowIso llm).engine = resetWindowState s txt ∧
      (resetWindowState s txt).lastAlertTimes = s.lastAlertTimes ∧
      (resetWindowState s txt).chunkAlertCount = 0 ∧
      (resetWindowState s txt).recentTranscript =
        pushWindow s.recentTranscript txt s.maxRecentChunks) := by
  constructor
  · intro h
    simp [analyzeChunk, h]
  · intro he hp
    subst hp
    have h : analyzeChunk s none txt sid now nowIso llm =
        { alerts := [], topicsCovered := [], engine := resetWindowState s txt,
          appended := [], published := [], prepSaved := none } := by
      simp [analyzeChunk, he]
    rw [h]
    exact ⟨rfl, rfl, rfl, rfl, rfl, rfl, rfl, rfl, rfl⟩

/-- Witness for C6 (amended): the disabled branch at a concrete input. -/
theorem c6_disabled_no_prep_witness :
    analyzeChunk { enabled := false } none "x" "s1" 0 "t" (.error ()) =
      { alerts := [], topicsCovered := [], engine := { enabled := false },
        appended := [], published := [], prepSaved := none } :=
  (c6_disabled_no_prep { enabled := false } none "x" "s1" "t" 0 (.error ())).1 rfl

/-! ## LLM coaching response mapping (coaching.py `_analyze_with_llm`) -/

/-- One entry of the `objections` category; `.get(field, "")` defaults are
baked into the field defaults. -/
structure LLMObjection where
  detected : String := ""
  response : Option String := none
  deriving DecidableEq, Repr

structure LLMSuggestedQuestion where
  question : String := ""
  reason : Option String := none
  deriving DecidableEq, Repr

structure LLMMissingTopic where
  topic : String := ""
  suggestion : Option String := none
  deriving DecidableEq, Repr

structure LLMCompetitorInsight where
  competitor : String := ""
  context : String := ""
  talking_point : Option String := none
  deriving DecidableEq, Repr

structure LLMObservation where
  type : String := ""
  content : String := ""
  deriving DecidableEq, Repr

/-- The parsed structured response of the LLM coaching pass: five
independent categories. -/
structure LLMCoachingResponse where
  objections : List LLMObjection := []
  suggested_questions : List LLMSuggestedQuestion := []
  missing_topics : List LLMMissingTopic := []
  competitor_insights : List LLMCompetitorInsight := []
  observations : List LLMObservation := []
  deriving DecidableEq, Repr

def objAlert (o : LLMObjection) : CoachingAlert :=
  { id := "", alert_type := .objection, content := o.detected, suggestion := o.response }

def questionAlert (q : LLMSuggestedQuestion) : CoachingAlert :=
  { id := "", alert_type := .suggested_question, content := q.question,
    suggestion := q.reason }

def topicAlert (t : LLMMissingTopic) : CoachingAlert :=
  { id := "", alert_type := .missing_topic,
    content := "Haven\x27t mentioned: " ++ t.topic, suggestion := t.suggestion }

def insightAlert (c : LLMCompetitorInsight) : CoachingAlert :=
  { id := "", alert_type := .competitor_mention,
    content := c.competitor ++ ": " ++ c.context, suggestion := c.talking_point }

def observationAlert (o : LLMObservation) : CoachingAlert :=
  { id := "", alert_type := .custom_reminder, content := o.content,
    metadata := [("observation_type", o.type)] }

/-- Embeds the alert-building tail of `_analyze_with_llm` (coaching.py):
each category entry is turned into an alert of the corresponding type and
kept only when the alert's formatted content is non-empty; observation
entries additionally require type `opportunity` or `warning`. -/
def buildAlerts (r : LLMCoachingResponse) : List CoachingAlert :=
  (r.objections.filterMap (fun o =>
    if o.detected ≠ "" then some (objAlert o) else none)) ++
  (r.suggested_questions.filterMap (fun q =>
    if q.question ≠ "" then some (questionAlert q) else none)) ++
  (r.missing_topics.filterMap (fun t =>
    if "Haven\x27t mentioned: " ++ t.topic ≠ "" then some (topicAlert t) else none)) ++
  (r.competitor_insights.filterMap (fun c =>
    if c.competitor ++ ": " ++ c.context ≠ "" then some (insightAlert c) else none)) ++
  (r.observations.filterMap (fun o =>
    if o.type == "opportunity" || o.type == "warning" then
      (if o.content ≠ "" then some (observationAlert o) else none)
    else none))

/-- Counterexample for C8: a `missing_topics` entry whose required `topic`
field is empty is not dropped — its formatted content carries the non-empty
prefix, so it still yields an alert. -/
theorem c8_counterexample :
    buildAlerts { missing_topics := [{ topic := "" }] } =
      [{ id := "", alert_type := .missing_topic, content := "Haven\x27t mentioned: ",
         suggestion := none }] := by
  decide

lemma filterMap_guard {α β : Type} (f : α → β) (p : α → Prop) [DecidablePred p]
    (l : List α) :
    l.filterMap (fun x => if p x then some (f x) else none) =
      (l.filter (fun x => decide (p x))).map f := by
  induction l with
  | nil => rfl
  | cons x xs ih =>
    by_cases h : p x
    · simp [List.filterMap_cons, List.filter_cons, h, ih]
    · simp [List.filterMap_cons, List.filter_cons, h, ih]

lemma filterMap_guard2 {α β : Type} (f : α → β) (p : α → Bool) (q : α → Prop)
    [DecidablePred q] (l : List α) :
    l.filterMap (fun x => if p x then (if q x then some (f x) else none) else none) =
      (l.filter (fun x => p x && decide (q x))).map f := by
  induction l with
  | nil => rfl
  | cons x xs ih =>
    by_cases hp : p x
    · by_cases hq : q x
      · simp [List.filterMap_cons, List.filter_cons, hp, hq, ih]
      · simp [List.filterMap_cons, List.filter_cons, hp, hq, ih]
    · simp [List.filterMap_cons, List.filter_cons, hp, ih]

lemma ne_empty_of_length_pos {s : String} (h : 0 < s.length) : s ≠ "" := by
  intro hc
  rw [hc] at h
  exact absurd h (by decide)

lemma topicAlert_content_ne (t : LLMMissingTopic) :
    ("Haven\x27t mentioned: " ++ t.topic : String) ≠ "" := by
  apply ne_empty_of_length_pos
  rw [String.length_append]
  have h : 0 < ("Haven\x27t mentioned: " : String).length := by decide
  omega

lemma insightAlert_content_ne (c : LLMCompetitorInsight) :
    (c.competitor ++ ": " ++ c.context : String) ≠ "" := by
  apply ne_empty_of_length_pos
  rw [String.length_append, String.length_append]
  have h : (": " : String).length = 2 := by decide
  omega

/-- C8 (amended): each LLM response entry maps to at most one alert of the
corresponding type, kept or dropped by the emptiness of the alert's
formatted content.  For objections, suggested questions and observations
that check coincides with the entry's required text being non-empty, but a
`missing_topics` or `competitor_insights` entry always yields exactly one
alert — its content carries a non-empty prefix or separator even when the
entry's own text fields are empty.  Observations additionally require type
`opportunity` or `warning`. -/
theorem c8_llm_entry_mapping (r : LLMCoachingResponse) :
    buildAlerts r =
      ((r.objections.filter (fun o => decide (o.detected ≠ ""))).map objAlert) ++
      ((r.suggested_questions.filter (fun q => decide (q.question ≠ ""))).map
        questionAlert) ++
      (r.missing_topics.map topicAlert) ++
      (r.competitor_insights.map insightAlert) ++
      ((r.observations.filter (fun o =>
        (o.type == "opportunity" || o.type == "warning") &&
          decide (o.content ≠ ""))).map observationAlert) ∧
    ((buildAlerts r).filter
      (fun a => a.alert_type == AlertType.missing_topic)).length =
        r.missing_topics.length ∧
    ((buildAlerts r).filter
      (fun a => a.alert_type == AlertType.competitor_mention)).length =
        r.competitor_insights.length := by
  have hmain : buildAlerts r =
      ((r.objections.filter (fun o => decide (o.detected ≠ ""))).map objAlert) ++
      ((r.suggested_questions.filter (fun q => decide (q.question ≠ ""))).map
        questionAlert) ++
      (r.missing_topics.map topicAlert) ++
      (r.competitor_insights.map insightAlert) ++
      ((r.observations.filter (fun o =>
        (o.type == "opportunity" || o.type == "warning") &&
          decide (o.content ≠ ""))).map observationAlert) := by
    unfold buildAlerts
    rw [filterMap_guard objAlert (fun o => o.detected ≠ "") r.objections,
      filterMap_guard questionAlert (fun q => q.question ≠ "") r.suggested_questions,
      filterMap_guard topicAlert (fun t => "Haven\x27t mentioned: " ++ t.topic ≠ "")
        r.missing_topics,
      filterMap_guard insightAlert (fun c => c.competitor ++ ": " ++ c.context ≠ "")
        r.competitor_insights,
      filterMap_guard2 observationAlert
        (fun o => o.type == "opportunity" || o.type == "warning")
        (fun o => o.content ≠ "") r.observations]
    have ht : r.missing_topics.filter
        (fun t => decide ("Haven\x27t mentioned: " ++ t.topic ≠ "")) =
          r.missing_topics :=
      List.filter_eq_self.mpr (fun t _ => decide_eq_true (topicAlert_content_ne t))
    have hi : r.competitor_insights.filter
        (fun c => decide (c.competitor ++ ": " ++ c.context ≠ "")) =
          r.competitor_insights :=
      List.filter_eq_self.mpr (fun c _ => decide_eq_true (insightAlert_content_ne c))
    rw [ht, hi]
  refine ⟨hmain, ?_, ?_⟩
  · rw [hmain]
    simp only [List.filter_append, List.length_append]
    rw [List.filter_eq_nil_iff.mpr (by
      intro a ha
      obtain ⟨o, -, rfl⟩ := List.mem_map.mp ha
      simp [objAlert, observationAlert])]
    rw [List.filter_eq_nil_iff.mpr (by
      intro a ha
      obtain ⟨q, -, rfl⟩ := List.mem_map.mp ha
      simp [questionAlert])]
    rw [List.filter_eq_self.mpr (by
      intro a ha
      obtain ⟨t, -, rfl⟩ := List.mem_map.mp ha
      simp [topicAlert])]
    rw [List.filter_eq_nil_iff.mpr (by
      intro a ha
      obtain ⟨c, -, rfl⟩ := List.mem_map.mp ha
      simp [insightAlert])]
    rw [List.filter_eq_nil_iff.mpr (by
      intro a ha
      obtain ⟨o, -, rfl⟩ := List.mem_map.mp ha
      simp [objAlert, observationAlert])]
    simp [List.length_map]
  · rw [hmain]
    simp only [List.filter_append, List.length_append]
    rw [List.filter_eq_nil_iff.mpr (by
      intro a ha
      obtain ⟨o, -, rfl⟩ := List.mem_map.mp ha
      simp [objAlert, observationAlert])]
    rw [List.filter_eq_nil_iff.mpr (by
      intro a ha
      obtain ⟨q, -, rfl⟩ := List.mem_map.mp ha
      simp [questionAlert])]
    rw [List.filter_eq_nil_iff.mpr (by
      intro a ha
      obtain ⟨t, -, rfl⟩ := List.mem_map.mp ha
      simp [topicAlert])]
    rw [List.filter_eq_self.mpr (by
      intro a ha
      obtain ⟨c, -, rfl⟩ := List.mem_map.mp ha
      simp [insightAlert])]
    rw [List.filter_eq_nil_iff.mpr (by
      intro a ha
      obtain ⟨o, -, rfl⟩ := List.mem_map.mp ha
      simp [objAlert, observationAlert])]
    simp [List.length_map]

/-! ## Event bus (events.py) -/

/-- Embeds `EventBus`.  Queues and synchronous handlers are identified by
numeric ids; the per-type dict-of-lists is flattened into a registration
list in subscription order, so the per-type delivery order of the dict's
lists is the order of matching registrations. -/
structure EventBus where
  nextQueue : Nat := 0
  asyncSubs : List (String × Nat) := []
  syncHandlers : List (String × Nat) := []
  deriving DecidableEq, Repr

/-- Embeds `EventBus.subscribe`: create a fresh queue, append it to the
subscriber list for the type, and hand it back. -/
def EventBus.subscribe (b : EventBus) (t : String) : Nat × EventBus :=
  (b.nextQueue,
    { b with nextQueue := b.nextQueue + 1, asyncSubs := b.asyncSubs ++ [(t, b.nextQueue)] })

/-- Embeds `EventBus.subscribe_all`: subscribe under the wildcard type. -/
def EventBus.subscribeAll (b : EventBus) : Nat × EventBus := b.subscribe "*"

/-- Embeds `EventBus.on`: register a synchronous handler for a type. -/
def EventBus.on (b : EventBus) (t : String) (h : Nat) : EventBus :=
  { b with syncHandlers := b.syncHandlers ++ [(t, h)] }

/-- The queues (or handlers) registered for a type, in registration order:
the list `self._async_subscribers[event_type]` iterated by publish. -/
def queuesFor (subs : List (String × Nat)) (t : String) : List Nat :=
  (subs.filter (fun p => p.1 == t)).map (fun p => p.2)

/-- A delivery target of one publish call: an `await queue.put(event)` or a
synchronous `handler(event)` invocation. -/
inductive Target where
  | queue (id : Nat)
  | handler (id : Nat)
  deriving DecidableEq, Repr

/-- Embeds `EventBus.publish` as its ordered delivery sequence: queues of
the exact type, queues of the wildcard type, then synchronous handlers of
the exact type and of the wildcard. -/
def publishTargets (b : EventBus) (e : Event) : List Target :=
  (queuesFor b.asyncSubs e.type).map Target.queue ++
  (queuesFor b.asyncSubs "*").map Target.queue ++
  (queuesFor b.syncHandlers e.type).map Target.handler ++
  (queuesFor b.syncHandlers "*").map Target.handler

/-- Bus well-formedness: all registered queue ids were allocated below the
fresh counter, with no duplicates. -/
def BusWF (b : EventBus) : Prop :=
  (∀ p ∈ b.asyncSubs, p.2 < b.nextQueue) ∧ (b.asyncSubs.map Prod.snd).Nodup

lemma queuesFor_append (l1 l2 : List (String × Nat)) (t : String) :
    queuesFor (l1 ++ l2) t = queuesFor l1 t ++ queuesFor l2 t := by
  simp [queuesFor, List.filter_append]

lemma target_queue_injective : Function.Injective Target.queue := by
  intro a b h
  cases h
  rfl

lemma count_queue_map_handler (q : Nat) (l : List Nat) :
    (l.map Target.handler).count (Target.queue q) = 0 := by
  rw [List.count_eq_zero]
  intro hmem
  obtain ⟨x, -, hx⟩ := List.mem_map.mp hmem
  cases hx

lemma count_queuesFor_lt (subs : List (String × Nat)) (t : String) (q : Nat)
    (h : ∀ p ∈ subs, p.2 < q) : (queuesFor subs t).count q = 0 := by
  rw [List.count_eq_zero]
  intro hmem
  obtain ⟨p, hp, hpq⟩ := List.mem_map.mp hmem
  have := h p (List.mem_of_mem_filter hp)
  omega

/-- C7: event bus delivery.  Subscribing twice to the same type returns two
distinct fresh queues; publishing an event of that type delivers, in order,
to the queues of the exact type, the wildcard queues, the synchronous
handlers of the exact type and the wildcard handlers; every queue
registered for the type occurs in the delivery sequence, and each of the
two new queues receives the event exactly once (broadcast, not
competing-consumer). -/
theorem c7_event_bus (b : EventBus) (t : String) (e : Event)
    (hWF : BusWF b) (ht : e.type = t) (hw : t ≠ "*") :
    ((b.subscribe t).2.subscribe t).1 ≠ (b.subscribe t).1 ∧
    publishTargets ((b.subscribe t).2.subscribe t).2 e =
      (queuesFor ((b.subscribe t).2.subscribe t).2.asyncSubs e.type).map Target.queue ++
      (queuesFor ((b.subscribe t).2.subscribe t).2.asyncSubs "*").map Target.queue ++
      (queuesFor ((b.subscribe t).2.subscribe t).2.syncHandlers e.type).map Target.handler ++
      (queuesFor ((b.subscribe t).2.subscribe t).2.syncHandlers "*").map Target.handler ∧
    (∀ q ∈ queuesFor ((b.subscribe t).2.subscribe t).2.asyncSubs t,
      Target.queue q ∈ publishTargets ((b.subscribe t).2.subscribe t).2 e) ∧
    (publishTargets ((b.subscribe t).2.subscribe t).2 e).count
      (Target.queue (b.subscribe t).1) = 1 ∧
    (publishTargets ((b.subscribe t).2.subscribe t).2 e).count
      (Target.queue ((b.subscribe t).2.subscribe t).1) = 1 := by
  obtain ⟨hlt, hnd⟩ := hWF
  have hq1 : (b.subscribe t).1 = b.nextQueue := rfl
  have hq2 : ((b.subscribe t).2.subscribe t).1 = b.nextQueue + 1 := rfl
  have hsubs : ((b.subscribe t).2.subscribe t).2.asyncSubs =
      b.asyncSubs ++ [(t, b.nextQueue)] ++ [(t, b.nextQueue + 1)] := rfl
  have hhandlers : ((b.subscribe t).2.subscribe t).2.syncHandlers = b.syncHandlers := rfl
  have hq12 : queuesFor ((b.subscribe t).2.subscribe t).2.asyncSubs t =
      queuesFor b.asyncSubs t ++ [b.nextQueue, b.nextQueue + 1] := by
    rw [hsubs, queuesFor_append, queuesFor_append]
    simp [queuesFor]
  have hwild : queuesFor ((b.subscribe t).2.subscribe t).2.asyncSubs "*" =
      queuesFor b.asyncSubs "*" := by
    rw [hsubs, queuesFor_append, queuesFor_append]
    have h1 : queuesFor [(t, b.nextQueue)] "*" = [] := by
      simp [queuesFor, hw]
    have h2 : queuesFor [(t, b.nextQueue + 1)] "*" = [] := by
      simp [queuesFor, hw]
    rw [h1, h2]
    simp
  refine ⟨by rw [hq1, hq2]; omega, rfl, ?_, ?_, ?_⟩
  · intro q hq
    unfold publishTargets
    rw [ht]
    refine List.mem_append_left _ (List.mem_append_left _ (List.mem_append_left _ ?_))
    exact List.mem_map_of_mem _ hq
  · unfold publishTargets
    rw [ht, hq1, hq12, hwild, hhandlers]
    simp only [List.count_append, List.map_append]
    rw [count_queue_map_handler, count_queue_map_handler]
    have hbase : ((queuesFor b.asyncSubs t).map Target.queue).count
        (Target.queue b.nextQueue) = 0 := by
      rw [List.count_map_of_injective _ _ target_queue_injective]
      exact count_queuesFor_lt _ _ _ hlt
    have hbasew : ((queuesFor b.asyncSubs "*").map Target.queue).count
        (Target.queue b.nextQueue) = 0 := by
      rw [List.count_map_of_injective _ _ target_queue_injective]
      exact count_queuesFor_lt _ _ _ hlt
    have hnew : (([b.nextQueue, b.nextQueue + 1] : List Nat).map Target.queue).count
        (Target.queue b.nextQueue) = 1 := by
      rw [List.count_map_of_injective _ _ target_queue_injective]
      simp
    rw [hbase, hbasew, hnew]
  · unfold publishTargets
    rw [ht, hq2, hq12, hwild, hhandlers]
    simp only [List.count_append, List.map_append]
    rw [count_queue_map_handler, count_queue_map_handler]
    have hlt' : ∀ p ∈ b.asyncSubs, p.2 < b.nextQueue + 1 := by
      intro p hp
      have := hlt p hp
      omega
    have hbase : ((queuesFor b.asyncSubs t).map Target.queue).count
        (Target.queue (b.nextQueue + 1)) = 0 := by
      rw [List.count_map_of_injective _ _ target_queue_injective]
      exact count_queuesFor_lt _ _ _ hlt'
    have hbasew : ((queuesFor b.asyncSubs "*").map Target.queue).count
        (Target.queue (b.nextQueue + 1)) = 0 := by
      rw [List.count_map_of_injective _ _ target_queue_injective]
      exact count_queuesFor_lt _ _ _ hlt'
    have hnew : (([b.nextQueue, b.nextQueue + 1] : List Nat).map Target.queue).count
        (Target.queue (b.nextQueue + 1)) = 1 := by
      rw [List.count_map_of_injective _ _ target_queue_injective]
      simp
    rw [hbase, hbasew, hnew]

/-- Witness for C7 at the empty bus and the chunk_transcribed type. -/
theorem c7_event_bus_witness :
    BusWF {} ∧
    ((({} : EventBus).subscribe "chunk_transcribed").2.subscribe "chunk_transcribed").1 ≠
      (({} : EventBus).subscribe "chunk_transcribed").1 := by
  have hWF : BusWF {} := ⟨by simp, by simp⟩
  refine ⟨hWF, ?_⟩
  exact (c7_event_bus {} "chunk_transcribed"
    { type := "chunk_transcribed", data := .kv [], session_id := "s1" }
    hWF rfl (by decide)).1

/-! ## Coaching alert dismissal (session_store.py `dismiss_coaching_alert`) -/

/-- The loop of `dismiss_coaching_alert`: set `dismissed` on the first alert
whose id matches, returning none when no alert matches. -/
def setDismissedFirst : List CoachingAlert → String → Option (List CoachingAlert)
  | [], _ => none
  | a :: rest, alertId =>
    if a.id = alertId then some ({ a with dismissed := true } :: rest)
    else (setDismissedFirst rest alertId).map (fun l => a :: l)

/-- Embeds `dismiss_coaching_alert` at the level of the parsed alert log:
returns whether a matching alert was found, together with the log contents
afterwards (rewritten only when found). -/
def dismissCoachingAlert (log : List CoachingAlert) (alertId : String) :
    Bool × List CoachingAlert :=
  match setDismissedFirst log alertId with
  | some l => (true, l)
  | none => (false, log)

lemma setDismissedFirst_none_iff (log : List CoachingAlert) (alertId : String) :
    setDismissedFirst log alertId = none ↔ ∀ a ∈ log, a.id ≠ alertId := by
  induction log with
  | nil => simp [setDismissedFirst]
  | cons x xs ih =>
    rw [setDismissedFirst]
    by_cases hx : x.id = alertId
    · rw [if_pos hx]
      constructor
      · intro h
        exact absurd h (by simp)
      · intro h
        exact absurd hx (h x (List.mem_cons_self _ _))
    · rw [if_neg hx]
      rcases hrec : setDismissedFirst xs alertId with _ | l
      · constructor
        · intro _ a ha
          rcases List.mem_cons.mp ha with h | h
          · exact h ▸ hx
          · exact (ih.mp hrec) a h
        · intro _
          rfl
      · constructor
        · intro h
          exact absurd h (by simp)
        · intro h
          have hn := ih.mpr (fun a ha => h a (List.mem_cons_of_mem _ ha))
          rw [hrec] at hn
          exact absurd hn (by simp)

lemma setDismissedFirst_split (pre : List CoachingAlert) (a : CoachingAlert)
    (post : List CoachingAlert) (alertId : String)
    (hpre : ∀ b ∈ pre, b.id ≠ alertId) (ha : a.id = alertId) :
    setDismissedFirst (pre ++ a :: post) alertId =
      some (pre ++ { a with dismissed := true } :: post) := by
  induction pre with
  | nil =>
    simp only [List.nil_append]
    rw [setDismissedFirst, if_pos ha]
  | cons x xs ih =>
    have hx : x.id ≠ alertId := hpre x (List.mem_cons_self _ _)
    rw [List.cons_append, setDismissedFirst, if_neg hx,
      ih (fun b hb => hpre b (List.mem_cons_of_mem _ hb))]
    rfl

/-- C10: `dismiss_coaching_alert` returns true exactly when some alert in
the log has the given id; on success it rewrites the log with `dismissed`
set on the first matching alert, every other alert and the order untouched;
on failure the log is left unchanged. -/
theorem c10_dismiss_coaching_alert (log : List CoachingAlert) (alertId : String) :
    ((dismissCoachingAlert log alertId).1 = true ↔ ∃ a ∈ log, a.id = alertId) ∧
    ((dismissCoachingAlert log alertId).1 = false →
      (dismissCoachingAlert log alertId).2 = log) ∧
    (∀ pre a post, log = pre ++ a :: post → (∀ b ∈ pre, b.id ≠ alertId) →
      a.id = alertId →
      (dismissCoachingAlert log alertId).2 =
        pre ++ { a with dismissed := true } :: post) := by
  refine ⟨?_, ?_, ?_⟩
  · unfold dismissCoachingAlert
    rcases hs : setDismissedFirst log alertId with _ | l
    · simp only [Bool.false_eq_true, false_iff]
      rintro ⟨a, ha, haid⟩
      exact ((setDismissedFirst_none_iff log alertId).mp hs) a ha haid
    · simp only [true_iff]
      by_contra hno
      push_neg at hno
      have hn := (setDismissedFirst_none_iff log alertId).mpr hno
      rw [hs] at hn
      exact absurd hn (by simp)
  · unfold dismissCoachingAlert
    rcases hs : setDismissedFirst log alertId with _ | l
    · intro _
      rfl
    · intro h
      exact absurd h (by simp)
  · intro pre a post hsplit hpre ha
    subst hsplit
    unfold dismissCoachingAlert
    rw [setDismissedFirst_split pre a post alertId hpre ha]

/-- Witness for C10: dismissing the second of two alerts flips only its
`dismissed` flag and keeps the first alert and the order intact. -/
theorem c10_dismiss_coaching_alert_witness :
    (dismissCoachingAlert
      [{ id := "a1", alert_type := .objection, content := "c1" },
       { id := "a2", alert_type := .suggested_question, content := "c2" }] "a2").2 =
      [{ id := "a1", alert_type := .objection, content := "c1" },
       { id := "a2", alert_type := .suggested_question, content := "c2",
         dismissed := true }] :=
  (c10_dismiss_coaching_alert
    [{ id := "a1", alert_type := .objection, content := "c1" },
     { id := "a2", alert_type := .suggested_question, content := "c2" }] "a2").2.2
    [{ id := "a1", alert_type := .objection, content := "c1" }]
    { id := "a2", alert_type := .suggested_question, content := "c2" } [] rfl
    (by decide) rfl

end LiveTranscription
